import Mathlib

/-!
Verification of the back-testing core (src/backtester) against its
specification.  Numeric quantities (prices, sizes, cash) are modelled as
rationals; Python dicts are modelled as insertion-ordered association
lists.  The broker, engine and portfolio modules exchange records whose
fields follow the attribute names those modules actually read and write
(`size`, `order_id`, `fill_id`, ...); the diverging field sets declared by
the slotted dataclasses in `models.py` are modelled separately (see the
`fillDeclaredFields` / `candleDeclaredFields` section) because the
construction-keyword mismatch is itself one of the verified facts.
Wall-clock readings (`datetime.utcnow()`), the seeded PRNG (`random`) and
`uuid.uuid4()` are modelled as ambient input streams consumed through
explicit counters.
-/

namespace Backtester

/-- The `1e-10` epsilon used by `Portfolio.apply_fill`. -/
def eps10 : ℚ := 1 / 10000000000

/-- The `1e-8` epsilon used by `BacktesterEngine._close_all_positions`. -/
def eps8 : ℚ := 1 / 100000000

/-- A fill as constructed by `Broker.execute_order` and consumed by
`Portfolio.apply_fill` and the strategies.  `fill_time` is the
`datetime.utcnow().timestamp()` reading embedded in the
`fill_id = f"FILL_{...}_{symbol}"` string (the symbol component is already
the `symbol` field); `timestamp` is the second, separate `utcnow` reading. -/
structure Fill where
  order_id : String
  fill_time : ℚ
  symbol : String
  timestamp : ℚ
  is_buy : Bool
  price : ℚ
  size : ℚ
  fee : ℚ
  fee_currency : String
deriving Repr, DecidableEq

/-- An order as constructed by the strategies and
`BacktesterEngine._close_all_positions` and consumed by the broker. -/
structure Order where
  id : String
  symbol : String
  is_buy : Bool
  price : ℚ
  size : ℚ
deriving Repr, DecidableEq

/-- Model of `portfolio.Position`. -/
structure Position where
  symbol : String
  size : ℚ
  avg_price : ℚ
  realized_pnl : ℚ
deriving Repr, DecidableEq

/-- Model of `portfolio.PortfolioSnapshot`. -/
structure PortfolioSnapshot where
  timestamp : ℚ
  cash : ℚ
  equity : ℚ
  positions : List (String × Position)
deriving Repr, DecidableEq

/-- Mutable state of `portfolio.Portfolio`. -/
structure Portfolio where
  cash : ℚ
  positions : List (String × Position)
  history : List PortfolioSnapshot
deriving Repr, DecidableEq

/-- Model of `Portfolio.__init__`. -/
def Portfolio.init (initial_cash : ℚ) : Portfolio :=
  { cash := initial_cash, positions := [], history := [] }

/-- Python `dict` lookup on an insertion-ordered association list. -/
def alookup {α : Type} (l : List (String × α)) (k : String) : Option α :=
  (l.find? (fun p => p.1 = k)).map Prod.snd

/-- Python `dict.__setitem__`: update the existing entry in place, or append
a fresh entry at the end (dicts preserve insertion order). -/
def aupdate {α : Type} (l : List (String × α)) (k : String) (v : α) :
    List (String × α) :=
  match l with
  | [] => [(k, v)]
  | (k', v') :: rest => if k' = k then (k, v) :: rest else (k', v') :: aupdate rest k v

/-- The signed trade size: `size if is_buy else -size` (portfolio.py line 39). -/
def Fill.signedSize (f : Fill) : ℚ := if f.is_buy then f.size else -f.size

/-- Lines 42–59 of portfolio.py: the reducing/flipping block of `apply_fill`.
Returns the updated position together with the residual signed size. -/
def closeStep (pos : Position) (signed price : ℚ) : Position × ℚ :=
  if pos.size * signed < 0 then
    let closed := min |pos.size| |signed|
    let pnl := closed * (price - pos.avg_price) * (if 0 < pos.size then 1 else -1)
    let newSize := if 0 < pos.size then pos.size - closed else pos.size + closed
    let newSigned := if 0 < signed then signed - closed else signed + closed
    let pos' : Position :=
      if |newSize| < eps10 then
        { pos with size := 0, avg_price := 0, realized_pnl := pos.realized_pnl + pnl }
      else
        { pos with size := newSize, realized_pnl := pos.realized_pnl + pnl }
    (pos', newSigned)
  else (pos, signed)

/-- Lines 61–72 of portfolio.py: open a new position or add to a
same-direction one with the residual signed size. -/
def openStep (pos : Position) (signed price : ℚ) : Position :=
  if eps10 < |signed| then
    if pos.size = 0 then { pos with size := signed, avg_price := price }
    else
      let total_cost := pos.avg_price * |pos.size| + price * |signed|
      let newSize := pos.size + signed
      if newSize ≠ 0 then { pos with size := newSize, avg_price := total_cost / |newSize| }
      else { pos with size := newSize, avg_price := 0 }
  else pos

/-- Lines 74–77 of portfolio.py: the final epsilon cleanup. -/
def cleanupStep (pos : Position) : Position :=
  if |pos.size| < eps10 then { pos with size := 0, avg_price := 0 } else pos

/-- The position produced by `Portfolio.apply_fill` for the fill's symbol. -/
def applyFillPos (pos : Position) (f : Fill) : Position :=
  let step2 := closeStep pos f.signedSize f.price
  cleanupStep (openStep step2.1 step2.2 f.price)

/-- Model of `Portfolio.get_position` (returns a zero position when absent, without
inserting it). -/
def Portfolio.getPosition (pf : Portfolio) (symbol : String) : Position :=
  (alookup pf.positions symbol).getD ⟨symbol, 0, 0, 0⟩

/-- Model of `Portfolio.apply_fill` (portfolio.py lines 27–81).  The cash update uses
the original signed size (line 80), while the position update works on the
signed size as mutated by the closing block. -/
def Portfolio.applyFill (pf : Portfolio) (f : Fill) : Portfolio :=
  let pos0 := pf.getPosition f.symbol
  { pf with
      cash := pf.cash + (-(f.signedSize) * f.price - f.fee),
      positions := aupdate pf.positions f.symbol (applyFillPos pos0 f) }

/-- Model of `Portfolio.equity`: cash plus each position marked at the market price,
falling back to the position's average entry price. -/
def Portfolio.equity (pf : Portfolio) (market_prices : List (String × ℚ)) : ℚ :=
  pf.positions.foldl
    (fun acc p => acc + p.2.size * ((alookup market_prices p.1).getD p.2.avg_price))
    pf.cash

/-- Model of `Portfolio.record_snapshot`: append a value copy of the current state. -/
def Portfolio.recordSnapshot (pf : Portfolio) (timestamp : ℚ)
    (market_prices : List (String × ℚ)) : Portfolio :=
  { pf with
      history := pf.history ++
        [⟨timestamp, pf.cash, pf.equity market_prices, pf.positions⟩] }

/-! ### The execution model (broker.py)

`random.uniform(a, b)` is modelled as `a + (b - a) * u` where `u` is the
next unit-interval output of the seeded generator; the generator, the
wall clock and the uuid source are ambient streams read through counters. -/

/-- Ambient nondeterminism sources: the seeded PRNG stream (`random`), the
wall clock (`datetime.utcnow().timestamp()` readings) and `uuid.uuid4()`. -/
structure Env where
  rand : ℕ → ℚ
  clock : ℕ → ℚ
  uuidStr : ℕ → String

/-- Mutable state of `broker.Broker` (it owns the portfolio reference and
the append-only fills log). -/
structure Broker where
  fee_rate : ℚ
  slippage_pct : ℚ
  fills : List Fill
  portfolio : Portfolio
deriving Repr, DecidableEq

/-- Model of `Broker.execute_order` (broker.py lines 23–49).  Returns the optional
fill together with the advanced PRNG and clock counters.  The two
`datetime.utcnow()` calls (for the fill id and for the timestamp) read
consecutive clock values. -/
def Broker.executeOrder (b : Broker) (env : Env) (o : Order)
    (market_prices : List (String × ℚ)) (k c : ℕ) : Option Fill × ℕ × ℕ :=
  match alookup market_prices o.symbol with
  | none => (none, k, c)
  | some market_price =>
    let pk : ℚ × ℕ :=
      if 0 < b.slippage_pct
      then (-b.slippage_pct + (b.slippage_pct - -b.slippage_pct) * env.rand k, k + 1)
      else (0, k)
    let executed_price := market_price * (1 + pk.1)
    let fee := executed_price * o.size * b.fee_rate
    (some { order_id := o.id, fill_time := env.clock c, symbol := o.symbol,
            timestamp := env.clock (c + 1), is_buy := o.is_buy,
            price := executed_price, size := o.size, fee := fee,
            fee_currency := "USDT" }, pk.2, c + 2)

/-- Model of `Broker.submit_order` (broker.py lines 14–21) for a non-`None` order:
execute, and on a fill append it to the log and apply it to the ledger. -/
def Broker.submitOrder (b : Broker) (env : Env) (o : Order)
    (market_prices : List (String × ℚ)) (k c : ℕ) :
    Option Fill × Broker × ℕ × ℕ :=
  match b.executeOrder env o market_prices k c with
  | (none, k', c') => (none, b, k', c')
  | (some f, k', c') =>
    (some f, { b with fills := b.fills ++ [f],
                      portfolio := b.portfolio.applyFill f }, k', c')

/-! ### The simulation driver (engine.py)

Strategies are modelled as state machines over a state type `σ`: `on_candle`
maps a state and a candle to an optional order and a new state, `on_fill`
maps a state and a fill to a new state (`StrategyBase` always provides
`on_fill`, so the engine's `hasattr` probes succeed).  The terminal `on_end`
hooks mutate only strategy-internal state and are not modelled. -/

/-- One row of a symbol's historical dataframe (columns `timestamp, open,
high, low, close` and optional `volume`; `row.get('volume', 0)` yields 0
when the column is absent). -/
structure Row where
  timestamp : ℚ
  open_ : ℚ
  high : ℚ
  low : ℚ
  close : ℚ
  volume : Option ℚ
deriving Repr, DecidableEq, Inhabited

/-- The candle record as the engine builds and uses it (field names follow
the attributes the engine reads; `open_` stands for `open`). -/
structure Candle where
  symbol : String
  timestamp : ℚ
  open_ : ℚ
  high : ℚ
  low : ℚ
  close : ℚ
  volume : ℚ
deriving Repr, DecidableEq

/-- A pluggable decision-maker. -/
structure Strategy (σ : Type) where
  state : σ
  on_candle : σ → Candle → String → Option Order × σ
  on_fill : σ → Fill → σ

/-- The engine-owned mutable state during `run_backtest`: the strategy
list, the broker (owning the portfolio), and the consumption counters of
the PRNG (`k`), wall-clock (`c`) and uuid (`u`) streams. -/
structure EngineState (σ : Type) where
  strategies : List (Strategy σ)
  broker : Broker
  k : ℕ
  c : ℕ
  u : ℕ

/-- Engine.py lines 62–67: send one candle to every strategy in order; an
order is routed through the broker and a resulting fill is notified back
to the strategy that placed the order. -/
def dispatchCandle {σ : Type} (env : Env) (candle : Candle) (symbol : String)
    (mp : List (String × ℚ)) :
    List (Strategy σ) → Broker → ℕ → ℕ → List (Strategy σ) × Broker × ℕ × ℕ
  | [], b, k, c => ([], b, k, c)
  | strat :: rest, b, k, c =>
    match strat.on_candle strat.state candle symbol with
    | (none, s') =>
      let out := dispatchCandle env candle symbol mp rest b k c
      ({ strat with state := s' } :: out.1, out.2)
    | (some o, s') =>
      match b.submitOrder env o mp k c with
      | (none, b', k', c') =>
        let out := dispatchCandle env candle symbol mp rest b' k' c'
        ({ strat with state := s' } :: out.1, out.2)
      | (some f, b', k', c') =>
        let strat1 : Strategy σ := { strat with state := s' }
        let strat2 : Strategy σ := { strat1 with state := strat1.on_fill strat1.state f }
        let out := dispatchCandle env candle symbol mp rest b' k' c'
        (strat2 :: out.1, out.2)

/-- Engine.py lines 48–67: the per-symbol loop of one time step.  The
mark-price map is extended with the symbol's close before the dispatch, so
strategies see the prices of all symbols processed so far in this step. -/
def stepSymbols {σ : Type} (env : Env) (data : List (String × List Row)) (idx : ℕ) :
    List String → List (Strategy σ) → Broker → ℕ → ℕ → List (String × ℚ) →
    (List (Strategy σ) × Broker × ℕ × ℕ) × List (String × ℚ)
  | [], strats, b, k, c, mp => ((strats, b, k, c), mp)
  | symbol :: rest, strats, b, k, c, mp =>
    let row := ((alookup data symbol).getD []).getD idx default
    let candle : Candle :=
      { symbol := symbol, timestamp := row.timestamp, open_ := row.open_,
        high := row.high, low := row.low, close := row.close,
        volume := row.volume.getD 0 }
    let mp1 := aupdate mp symbol candle.close
    match dispatchCandle env candle symbol mp1 strats b k c with
    | (strats', b', k', c') => stepSymbols env data idx rest strats' b' k' c' mp1

/-- Engine.py lines 107–110: notify every strategy of a forced-close fill. -/
def notifyAll {σ : Type} (strats : List (Strategy σ)) (f : Fill) : List (Strategy σ) :=
  strats.map (fun s => { s with state := s.on_fill s.state f })

/-- The body of the loop in `BacktesterEngine._close_all_positions`
(engine.py lines 92–114) for a single symbol: submit an opposite-side
closing order sized `|position.size|` when `|size| > 1e-8` (consuming one
uuid for the order id), then clamp the possibly-updated position to zero
when `|size| < 1e-8`. -/
def closeOneSubmit {σ : Type} (env : Env) (mp : List (String × ℚ))
    (st : EngineState σ) (symbol : String) : EngineState σ :=
  let position := st.broker.portfolio.getPosition symbol
  if eps8 < |position.size| then
    let closing_order : Order :=
      { id := "CLOSE_" ++ env.uuidStr st.u, symbol := symbol,
        is_buy := position.size < 0,
        price := (alookup mp symbol).getD position.avg_price,
        size := |position.size| }
    let res := st.broker.submitOrder env closing_order mp st.k st.c
    let strats1 := match res.1 with
      | some f => notifyAll st.strategies f
      | none => st.strategies
    { st with strategies := strats1, broker := res.2.1,
              k := res.2.2.1, c := res.2.2.2, u := st.u + 1 }
  else st

/-- Engine.py lines 112–114: clamp a residual position within `1e-8` of zero. -/
def clampPos {σ : Type} (st : EngineState σ) (symbol : String) : EngineState σ :=
  let position1 := st.broker.portfolio.getPosition symbol
  if |position1.size| < eps8 then
    let pf := st.broker.portfolio
    let zeroed : Position := { position1 with size := 0, avg_price := 0 }
    let pf' : Portfolio := { pf with positions := aupdate pf.positions symbol zeroed }
    { st with broker := { st.broker with portfolio := pf' } }
  else st

def closeOne {σ : Type} (env : Env) (mp : List (String × ℚ))
    (st : EngineState σ) (symbol : String) : EngineState σ :=
  clampPos (closeOneSubmit env mp st symbol) symbol

/-- Model of `BacktesterEngine._close_all_positions`: iterate `closeOne` over the
position keys present when the loop starts. -/
def closeAllPositions {σ : Type} (env : Env) (mp : List (String × ℚ)) :
    List String → EngineState σ → EngineState σ
  | [], st => st
  | symbol :: rest, st => closeAllPositions env mp rest (closeOne env mp st symbol)

/-- Model of `num_steps = min(len(df) for df in self.data.values())`. -/
def numSteps (data : List (String × List Row)) : ℕ :=
  ((data.map (fun p => p.2.length)).min?).getD 0

/-- One iteration of the step loop in `run_backtest` (engine.py lines
43–77): feed every symbol's candle, force liquidation when this is the
last step, then record a snapshot stamped with the first symbol's
timestamp. -/
def runStep {σ : Type} (env : Env) (symbols : List String)
    (data : List (String × List Row)) (total idx : ℕ) (st : EngineState σ) :
    EngineState σ :=
  match stepSymbols env data idx symbols st.strategies st.broker st.k st.c [] with
  | ((strats', b', k', c'), mp) =>
    let st1 : EngineState σ :=
      { strategies := strats', broker := b', k := k', c := c', u := st.u }
    let st2 := if idx = total - 1
      then closeAllPositions env mp (st1.broker.portfolio.positions.map Prod.fst) st1
      else st1
    let ts := (((alookup data (symbols.headD "")).getD []).getD idx default).timestamp
    { st2 with broker := { st2.broker with
        portfolio := st2.broker.portfolio.recordSnapshot ts mp } }

/-- Model of `BacktesterEngine.run_backtest` (the `on_end` hooks, which only touch
strategy-internal state, are omitted). -/
def runBacktest {σ : Type} (env : Env) (symbols : List String)
    (data : List (String × List Row)) (st : EngineState σ) : EngineState σ :=
  (List.range (numSteps data)).foldl
    (fun s idx => runStep env symbols data (numSteps data) idx s) st

/-! ### The dataclass declarations of models.py

The field sets declared by the slotted dataclasses in models.py diverge
from the keyword arguments the broker and the engine construct them with;
`constructionRaises` captures the Python rule that a `slots=True` dataclass
constructor raises `TypeError` on an unexpected keyword argument. -/

/-- Field names declared by the slotted dataclass `models.Fill`. -/
def fillDeclaredFields : List String :=
  ["symbol", "is_buy", "price", "quantity", "fee", "fee_currency", "timestamp"]

/-- Keyword arguments `Broker.execute_order` passes to `Fill(...)`. -/
def brokerFillKeywords : List String :=
  ["order_id", "fill_id", "symbol", "timestamp", "is_buy", "price", "size",
   "fee", "fee_currency"]

/-- Field names declared by the slotted dataclass `models.Candle`. -/
def candleDeclaredFields : List String :=
  ["symbol", "timestamp", "open", "high", "low", "close", "volume_base",
   "volume_quote"]

/-- Keyword arguments `BacktesterEngine.run_backtest` passes to `Candle(...)`. -/
def engineCandleKeywords : List String :=
  ["symbol", "timestamp", "open", "high", "low", "close", "volume"]

/-- A dataclass constructor call raises `TypeError` iff some keyword
argument is not among the declared fields. -/
def constructionRaises (declared kwargs : List String) : Bool :=
  kwargs.any (fun kw => !(declared.contains kw))

/-- Model of `Broker.execute_order` including the fate of its `Fill(...)` constructor
call under the field set declared in models.py: when a market price is
available the constructor runs and raises if its keyword set is invalid. -/
def Broker.executeOrderChecked (b : Broker) (env : Env) (o : Order)
    (market_prices : List (String × ℚ)) (k c : ℕ) :
    Except String (Option Fill × ℕ × ℕ) :=
  match alookup market_prices o.symbol with
  | none => .ok (none, k, c)
  | some _ =>
    if constructionRaises fillDeclaredFields brokerFillKeywords
    then .error "TypeError: unexpected keyword argument for Fill()"
    else .ok (b.executeOrder env o market_prices k c)

/-- A fill on symbol "X" with inert metadata, for concrete scenarios. -/
def mkFill (is_buy : Bool) (price size fee : ℚ) : Fill :=
  { order_id := "o", fill_time := 0, symbol := "X", timestamp := 0,
    is_buy := is_buy, price := price, size := size, fee := fee, fee_currency := "USDT" }

/-! ### Run-level predicates and concrete scenario inputs -/

/-- Every position key lies in `S` (in a run, `S` is the symbol list). -/
def posKeysSub (pf : Portfolio) (S : List String) : Prop :=
  ∀ x ∈ pf.positions.map Prod.fst, x ∈ S

/-- The position keys are pairwise distinct (Python dict keys). -/
def posKeysNodup (pf : Portfolio) : Prop :=
  (pf.positions.map Prod.fst).Nodup

/-- The engine's initial state: the given strategies, a fresh broker with an
empty fills log, a fresh portfolio, and unconsumed streams. -/
def initialEngineState {σ : Type} (strats : List (Strategy σ))
    (fee_rate slippage_pct cash : ℚ) : EngineState σ :=
  { strategies := strats,
    broker := { fee_rate := fee_rate, slippage_pct := slippage_pct, fills := [],
                portfolio := Portfolio.init cash },
    k := 0, c := 0, u := 0 }

/-- A decision-maker over state `Bool` that buys `sz` of its symbol on the
first candle it sees and never trades again. -/
def buyOnceStrategy (sz : ℚ) : Strategy Bool :=
  { state := false,
    on_candle := fun s c sym =>
      if s then (none, s) else (some ⟨"o1", sym, true, c.close, sz⟩, true),
    on_fill := fun s _ => s }

/-- A fixed environment: zero PRNG draws, constant clock, empty uuids. -/
def envC : Env := ⟨fun _ => 0, fun _ => 0, fun _ => ""⟩

/-- Two rows of data for symbol "A" with constant close 100. -/
def dataC : List (String × List Row) :=
  [("A", [⟨0, 100, 100, 100, 100, none⟩, ⟨1, 100, 100, 100, 100, none⟩])]

/-- The clock- and uuid-independent (economic) fields of a fill. -/
structure FillEcon where
  symbol : String
  is_buy : Bool
  price : ℚ
  size : ℚ
  fee : ℚ
  fee_currency : String
deriving Repr, DecidableEq

/-- Project a fill to its economic fields, dropping `order_id` (may embed a
uuid), `fill_time` and `timestamp` (wall-clock readings). -/
def Fill.econ (f : Fill) : FillEcon :=
  ⟨f.symbol, f.is_buy, f.price, f.size, f.fee, f.fee_currency⟩

/-- Brokers equal in configuration and portfolio whose fill logs agree on
all economic fields. -/
def BrokerRel (b1 b2 : Broker) : Prop :=
  b1.fee_rate = b2.fee_rate ∧ b1.slippage_pct = b2.slippage_pct ∧
  b1.portfolio = b2.portfolio ∧ b1.fills.map Fill.econ = b2.fills.map Fill.econ

/-- Engine states that agree except on the non-economic fill fields. -/
def StateRel {σ : Type} (s1 s2 : EngineState σ) : Prop :=
  s1.strategies = s2.strategies ∧ BrokerRel s1.broker s2.broker ∧
  s1.k = s2.k ∧ s1.c = s2.c ∧ s1.u = s2.u

/-- Every strategy's `on_fill` depends only on the fill's economic fields. -/
def StratsInsens {σ : Type} (strats : List (Strategy σ)) : Prop :=
  ∀ strat ∈ strats, ∀ (s : σ) (f g : Fill),
    f.econ = g.econ → strat.on_fill s f = strat.on_fill s g

/-- A second fixed environment, identical PRNG stream but a different wall
clock. -/
def envC2 : Env := ⟨fun _ => 0, fun _ => 1, fun _ => ""⟩

/-! ### Association-list lemmas -/

theorem alookup_nil {α : Type} (k : String) : alookup ([] : List (String × α)) k = none := rfl

theorem alookup_cons {α : Type} (p : String × α) (l : List (String × α)) (k : String) :
    alookup (p :: l) k = if p.1 = k then some p.2 else alookup l k := by
  by_cases h : p.1 = k
  · simp [alookup, List.find?_cons_of_pos, h]
  · simp [alookup, List.find?_cons_of_neg, h]

theorem aupdate_nil {α : Type} (k : String) (v : α) : aupdate [] k v = [(k, v)] := rfl

theorem aupdate_cons {α : Type} (p : String × α) (l : List (String × α)) (k : String) (v : α) :
    aupdate (p :: l) k v = if p.1 = k then (k, v) :: l else p :: aupdate l k v := by
  cases p; simp [aupdate]

theorem alookup_aupdate_self {α : Type} (l : List (String × α)) (k : String) (v : α) :
    alookup (aupdate l k v) k = some v := by
  induction l with
  | nil => rw [aupdate_nil, alookup_cons]; simp
  | cons p rest ih =>
    rw [aupdate_cons]
    by_cases h : p.1 = k
    · rw [if_pos h, alookup_cons]; simp
    · rw [if_neg h, alookup_cons, ih]; simp [h]

theorem alookup_aupdate_ne {α : Type} (l : List (String × α)) {k k' : String} (v : α)
    (h : k' ≠ k) : alookup (aupdate l k v) k' = alookup l k' := by
  have hkk : ¬ k = k' := fun hh => h hh.symm
  induction l with
  | nil => rw [aupdate_nil, alookup_cons]; simp [hkk]
  | cons p rest ih =>
    rw [aupdate_cons]
    by_cases hp : p.1 = k
    · rw [if_pos hp, alookup_cons, alookup_cons, hp, if_neg hkk, if_neg hkk]
    · rw [if_neg hp, alookup_cons, alookup_cons, ih]

theorem mem_aupdate {α : Type} {l : List (String × α)} {k : String} {v : α} :
    ∀ p ∈ aupdate l k v, p ∈ l ∨ p = (k, v) := by
  induction l with
  | nil => simp [aupdate_nil]
  | cons q rest ih =>
    intro p hp
    rw [aupdate_cons] at hp
    by_cases h : q.1 = k
    · rw [if_pos h] at hp
      rcases List.mem_cons.mp hp with hp | hp
      · right; exact hp
      · left; exact List.mem_cons_of_mem _ hp
    · rw [if_neg h] at hp
      rcases List.mem_cons.mp hp with hp | hp
      · left; exact hp ▸ List.mem_cons_self _ _
      · rcases ih p hp with h' | h'
        · left; exact List.mem_cons_of_mem _ h'
        · right; exact h'

/-! ### Ledger-level lemmas -/

theorem applyFill_cash (pf : Portfolio) (f : Fill) :
    (pf.applyFill f).cash = pf.cash - f.signedSize * f.price - f.fee := by
  simp only [Portfolio.applyFill]
  ring

theorem foldl_applyFill_cash (fs : List Fill) (pf : Portfolio) :
    (fs.foldl Portfolio.applyFill pf).cash
      = pf.cash - (fs.map (fun g => g.signedSize * g.price + g.fee)).sum := by
  induction fs generalizing pf with
  | nil => simp
  | cons g gs ih =>
    simp only [List.foldl_cons, List.map_cons, List.sum_cons, ih, applyFill_cash]
    ring

theorem cleanupStep_eps (pos : Position) :
    |(cleanupStep pos).size| < eps10 →
      (cleanupStep pos).size = 0 ∧ (cleanupStep pos).avg_price = 0 := by
  unfold cleanupStep
  split_ifs with h
  · exact fun _ => ⟨rfl, rfl⟩
  · exact fun hh => absurd hh h

theorem applyFillPos_eps (pos : Position) (f : Fill) :
    |(applyFillPos pos f).size| < eps10 →
      (applyFillPos pos f).size = 0 ∧ (applyFillPos pos f).avg_price = 0 := by
  unfold applyFillPos
  exact cleanupStep_eps _

/-- The epsilon-closure property of a position ledger (claim C4's invariant). -/
def epsInvariant (pf : Portfolio) : Prop :=
  ∀ p ∈ pf.positions, |p.2.size| < eps10 → p.2.size = 0 ∧ p.2.avg_price = 0

theorem applyFill_epsInvariant {pf : Portfolio} (f : Fill) (h : epsInvariant pf) :
    epsInvariant (pf.applyFill f) := by
  intro p hp hsmall
  rcases mem_aupdate p hp with hmem | rfl
  · exact h p hmem hsmall
  · exact applyFillPos_eps _ _ hsmall

theorem foldl_applyFill_epsInvariant (fs : List Fill) {pf : Portfolio}
    (h : epsInvariant pf) : epsInvariant (fs.foldl Portfolio.applyFill pf) := by
  induction fs generalizing pf with
  | nil => exact h
  | cons g gs ih => exact ih (applyFill_epsInvariant g h)

/-! ### Claim theorems: ledger and execution model -/

/-- C2: `apply_fill` changes cash by exactly `-(orig_signed) * price - fee`
where `orig_signed` is `+size` for a buy and `-size` for a sell, and with
zero fees any sequence of fills changes cash by exactly
`-Σ orig_signed_i * price_i`. -/
theorem cash_conservation (pf : Portfolio) (f : Fill) (fs : List Fill) :
    (pf.applyFill f).cash = pf.cash - f.signedSize * f.price - f.fee ∧
    ((∀ g ∈ fs, g.fee = 0) →
      (fs.foldl Portfolio.applyFill pf).cash
        = pf.cash - (fs.map (fun g => g.signedSize * g.price)).sum) := by
  refine ⟨applyFill_cash pf f, fun hfee => ?_⟩
  rw [foldl_applyFill_cash]
  have : fs.map (fun g => g.signedSize * g.price + g.fee)
      = fs.map (fun g => g.signedSize * g.price) := by
    refine List.map_congr_left (fun g hg => ?_)
    rw [hfee g hg, add_zero]
  rw [this]

/-- C4: after any `apply_fill`, every position with `|size| < 1e-10` has
size and average price exactly zero (`apply_fill` preserves the invariant,
and it holds after any fill sequence applied to a fresh portfolio). -/
theorem epsilon_closure (pf : Portfolio) (f : Fill) :
    (epsInvariant pf → epsInvariant (pf.applyFill f)) ∧
    (∀ (cash : ℚ) (fs : List Fill),
      epsInvariant (fs.foldl Portfolio.applyFill (Portfolio.init cash))) := by
  refine ⟨applyFill_epsInvariant f, fun cash fs => ?_⟩
  exact foldl_applyFill_epsInvariant fs (by intro p hp; simp [Portfolio.init] at hp)

/-- C5: when the order's symbol has no mark price, `submit_order` returns no
fill and leaves the broker state — the fills log and the whole portfolio
(cash, positions, history) — exactly unchanged, consuming no randomness and
no clock readings. -/
theorem silent_drop_missing_mark (b : Broker) (env : Env) (o : Order)
    (mp : List (String × ℚ)) (k c : ℕ) (h : alookup mp o.symbol = none) :
    b.submitOrder env o mp k c = (none, b, k, c) := by
  simp [Broker.submitOrder, Broker.executeOrder, h]

/-- C8: with slippage 0 the executed price equals the looked-up mark price
exactly and the PRNG counter is not advanced; and every produced fill's fee
is exactly `executed_price * size * fee_rate`. -/
theorem zero_slippage_price_and_proportional_fee
    (b : Broker) (env : Env) (o : Order) (mp : List (String × ℚ)) (k c : ℕ)
    (mark : ℚ) (hs : b.slippage_pct = 0) (hm : alookup mp o.symbol = some mark) :
    ((b.executeOrder env o mp k c).1.map Fill.price = some mark ∧
      (b.executeOrder env o mp k c).2.1 = k) ∧
    (∀ (b2 : Broker) (f : Fill) (k' c' : ℕ),
      b2.executeOrder env o mp k c = (some f, k', c') →
      f.fee = f.price * f.size * b2.fee_rate ∧ f.size = o.size) := by
  constructor
  · rw [Broker.executeOrder, hm]
    simp [hs]
  · intro b2 f k' c' hf
    rw [Broker.executeOrder, hm] at hf
    simp only [Prod.mk.injEq, Option.some.injEq] at hf
    obtain ⟨hf1, -, -⟩ := hf
    subst hf1
    exact ⟨rfl, rfl⟩

theorem getPosition_applyFill (pf : Portfolio) (f : Fill) :
    (pf.applyFill f).getPosition f.symbol = applyFillPos (pf.getPosition f.symbol) f := by
  simp [Portfolio.applyFill, Portfolio.getPosition, alookup_aupdate_self]

theorem getPosition_applyFill_ne (pf : Portfolio) (f : Fill) (x : String)
    (h : x ≠ f.symbol) :
    (pf.applyFill f).getPosition x = pf.getPosition x := by
  simp [Portfolio.applyFill, Portfolio.getPosition, alookup_aupdate_ne _ _ h]

theorem openStep_realized (pos : Position) (signed price : ℚ) :
    (openStep pos signed price).realized_pnl = pos.realized_pnl := by
  unfold openStep; dsimp only; split_ifs <;> rfl

theorem cleanupStep_realized (pos : Position) :
    (cleanupStep pos).realized_pnl = pos.realized_pnl := by
  unfold cleanupStep; split_ifs <;> rfl

theorem closeStep_realized (pos : Position) (signed price : ℚ)
    (h : pos.size * signed < 0) :
    (closeStep pos signed price).1.realized_pnl
      = pos.realized_pnl
        + min |pos.size| |signed| * (price - pos.avg_price)
            * (if 0 < pos.size then 1 else -1) := by
  unfold closeStep
  rw [if_pos h]
  dsimp only
  split_ifs <;> rfl

theorem eps10_pos : (0 : ℚ) < eps10 := by norm_num [eps10]
theorem abs_signedSize (f : Fill) : |f.signedSize| = |f.size| := by
  unfold Fill.signedSize; split_ifs <;> simp

/-- Applying a fill whose signed size exactly negates the position closes it
to exactly zero size and zero average price, adding the realized PnL of the
full position. -/
theorem applyFillPos_full_close (pos : Position) (f : Fill)
    (hne : pos.size ≠ 0) (hsg : f.signedSize = -pos.size) :
    applyFillPos pos f =
      { pos with
          size := 0
          avg_price := 0
          realized_pnl := (pos.realized_pnl
            + |pos.size| * (f.price - pos.avg_price)
                * (if 0 < pos.size then 1 else -1)) } := by
  have hmin : min |pos.size| |(-pos.size)| = |pos.size| := by rw [abs_neg, min_self]
  have hcond : pos.size * -pos.size < 0 := by
    have := mul_self_pos.mpr hne; nlinarith
  have h1 : closeStep pos (-pos.size) f.price =
      ({ pos with
           size := 0
           avg_price := 0
           realized_pnl := (pos.realized_pnl
             + |pos.size| * (f.price - pos.avg_price)
                 * (if 0 < pos.size then 1 else -1)) }, 0) := by
    unfold closeStep
    dsimp only
    rw [if_pos hcond]
    simp only [hmin]
    rcases hne.lt_or_lt with hneg | hpos
    · rw [if_neg (not_lt.mpr hneg.le), if_pos (by linarith : (0:ℚ) < -pos.size),
        abs_of_neg hneg]
      simp only [Prod.mk.injEq, Position.mk.injEq, true_and, and_true]
      rw [if_pos (by rw [show pos.size + -pos.size = (0:ℚ) by ring, abs_zero]; exact eps10_pos)]
      constructor
      · simp only [Position.mk.injEq, true_and, and_true]
      · ring
    · rw [if_pos hpos, if_neg (by linarith : ¬ (0:ℚ) < -pos.size), abs_of_pos hpos]
      simp only [Prod.mk.injEq, Position.mk.injEq, true_and, and_true]
      rw [if_pos (by rw [show pos.size - pos.size = (0:ℚ) by ring, abs_zero]; exact eps10_pos)]
      constructor
      · simp only [Position.mk.injEq, true_and, and_true]
      · ring
  have h2 : ∀ q : Position, openStep q 0 f.price = q := by
    intro q; unfold openStep
    rw [if_neg (by rw [abs_zero]; exact not_lt.mpr eps10_pos.le)]
  have h3 : ∀ q : Position, q.size = 0 → cleanupStep q = { q with size := 0, avg_price := 0 } := by
    intro q hq; unfold cleanupStep
    rw [if_pos (by rw [hq, abs_zero]; exact eps10_pos)]
  unfold applyFillPos
  rw [hsg, h1]
  dsimp only
  rw [h2, h3 _ rfl]

/-- Applying any fill to a flat position either opens `signed` at the trade
price or (when the signed size is within epsilon) leaves the position flat. -/
theorem applyFillPos_flat_open (pos : Position) (f : Fill) (hflat : pos.size = 0) :
    applyFillPos pos f =
      if eps10 < |f.signedSize|
      then { pos with size := f.signedSize, avg_price := f.price }
      else { pos with size := 0, avg_price := 0 } := by
  have h1 : closeStep pos f.signedSize f.price = (pos, f.signedSize) := by
    unfold closeStep
    rw [if_neg (by rw [hflat, zero_mul]; exact lt_irrefl 0)]
  unfold applyFillPos
  rw [h1]
  dsimp only
  by_cases hcase : eps10 < |f.signedSize|
  · rw [if_pos hcase]
    unfold openStep
    rw [if_pos hcase, if_pos hflat]
    unfold cleanupStep
    dsimp only
    rw [if_neg (not_lt.mpr hcase.le)]
  · rw [if_neg hcase]
    unfold openStep
    rw [if_neg hcase]
    unfold cleanupStep
    rw [if_pos (by rw [hflat, abs_zero]; exact eps10_pos)]
/-- For same-sign rationals the sum's absolute value is additive and nonzero. -/
theorem same_sign_abs_add {x y : ℚ} (h : 0 < x * y) :
    |x + y| = |x| + |y| ∧ x + y ≠ 0 := by
  rcases mul_pos_iff.mp h with ⟨hx, hy⟩ | ⟨hx, hy⟩
  · have : 0 < x + y := by linarith
    rw [abs_of_pos this, abs_of_pos hx, abs_of_pos hy]
    exact ⟨rfl, ne_of_gt this⟩
  · have : x + y < 0 := by linarith
    rw [abs_of_neg this, abs_of_neg hx, abs_of_neg hy]
    exact ⟨by ring, ne_of_lt this⟩

/-- Adding to a same-direction position with `|signed| > eps10` recomputes the
weighted-average entry price. -/
theorem applyFillPos_same_direction (pos : Position) (f : Fill)
    (hsame : 0 < pos.size * f.signedSize) (hq : eps10 < f.size) :
    applyFillPos pos f =
      { pos with
          size := pos.size + f.signedSize
          avg_price := (pos.avg_price * |pos.size| + f.price * f.size)
            / |pos.size + f.signedSize| } := by
  have hs0 : 0 < f.size := lt_trans eps10_pos hq
  have habs : |f.signedSize| = f.size := by rw [abs_signedSize, abs_of_pos hs0]
  have hsne : pos.size ≠ 0 := by
    intro hz; rw [hz, zero_mul] at hsame; exact lt_irrefl 0 hsame
  have hsum := same_sign_abs_add hsame
  have h1 : closeStep pos f.signedSize f.price = (pos, f.signedSize) := by
    unfold closeStep
    rw [if_neg (lt_asymm hsame)]
  have habs_gt : eps10 < |f.signedSize| := by rw [habs]; exact hq
  have h2 : openStep pos f.signedSize f.price =
      { pos with
          size := pos.size + f.signedSize
          avg_price := (pos.avg_price * |pos.size| + f.price * f.size)
            / |pos.size + f.signedSize| } := by
    unfold openStep
    dsimp only
    rw [if_pos habs_gt, if_neg hsne, if_pos hsum.2, habs]
  have h3 : ¬ |pos.size + f.signedSize| < eps10 := by
    rw [hsum.1, habs]
    push_neg
    have : (0:ℚ) ≤ |pos.size| := abs_nonneg _
    linarith
  unfold applyFillPos
  rw [h1]
  dsimp only
  rw [h2]
  unfold cleanupStep
  rw [if_neg h3]


theorem applyFillPos_flip (s a r q p : ℚ) (sym : String) (f : Fill)
    (hs : 0 < s) (hsell : f.is_buy = false) (hq : f.size = q) (hp : f.price = p)
    (hflip : s < q) (hgap : eps10 < q - s) :
    applyFillPos ⟨sym, s, a, r⟩ f = ⟨sym, -(q - s), p, r + s * (p - a)⟩ := by
  have hq0 : 0 < q := lt_trans hs hflip
  have hsigned : f.signedSize = -q := by simp [Fill.signedSize, hsell, hq]
  have hmin : min |s| |(-q)| = s := by
    rw [abs_neg, abs_of_pos hs, abs_of_pos hq0]; exact min_eq_left hflip.le
  have hcond : s * -q < 0 := by nlinarith
  have hnq : ¬ (0:ℚ) < -q := by linarith
  have h1 : closeStep ⟨sym, s, a, r⟩ (-q) p = (⟨sym, 0, 0, r + s * (p - a)⟩, -q + s) := by
    unfold closeStep
    dsimp only
    rw [if_pos hcond]
    simp only [hmin, if_pos hs, if_neg hnq, sub_self, abs_zero, if_pos eps10_pos]
    simp only [Prod.mk.injEq, Position.mk.injEq, true_and, and_true]
    ring
  have h2 : openStep ⟨sym, 0, 0, r + s * (p - a)⟩ (-q + s) p
      = ⟨sym, -q + s, p, r + s * (p - a)⟩ := by
    unfold openStep
    dsimp only
    rw [if_pos (show eps10 < |(-q + s)| by rw [abs_of_neg (by linarith)]; linarith)]
    rw [if_pos rfl]
  have h3 : cleanupStep ⟨sym, -q + s, p, r + s * (p - a)⟩
      = ⟨sym, -q + s, p, r + s * (p - a)⟩ := by
    unfold cleanupStep
    dsimp only
    rw [if_neg (show ¬ |(-q + s)| < eps10 by rw [abs_of_neg (by linarith)]; push_neg; linarith)]
  unfold applyFillPos
  rw [hsigned, hp, h1]
  dsimp only
  rw [h2, h3]
  simp only [Position.mk.injEq, true_and, and_true]
  ring

/-- C1 (amended): a sell of size `q` against a long of size `s > 0` with
`q - s > 1e-10` realizes `s * (p - a)` and flips the position to short
`q - s` at price `p`; the realized-PnL increment of any reducing or
flipping fill is `min(|size|, |signed|) * (price - avg) * sign(size)`.
(When `0 < q - s ≤ 1e-10` the residual is below the open-threshold and the
position ends flat instead — see the counterexample.) -/
theorem flip_correctness (pf : Portfolio) (f : Fill) (s a r q p : ℚ)
    (hpos : pf.getPosition f.symbol = ⟨f.symbol, s, a, r⟩)
    (hs : 0 < s) (hsell : f.is_buy = false) (hq : f.size = q) (hp : f.price = p)
    (hflip : s < q) (hgap : eps10 < q - s) :
    (pf.applyFill f).getPosition f.symbol = ⟨f.symbol, -(q - s), p, r + s * (p - a)⟩ ∧
    (∀ (pf2 : Portfolio) (g : Fill),
      (pf2.getPosition g.symbol).size * g.signedSize < 0 →
      ((pf2.applyFill g).getPosition g.symbol).realized_pnl
        = (pf2.getPosition g.symbol).realized_pnl
          + min |(pf2.getPosition g.symbol).size| |g.signedSize|
              * (g.price - (pf2.getPosition g.symbol).avg_price)
              * (if 0 < (pf2.getPosition g.symbol).size then 1 else -1)) := by
  constructor
  · rw [getPosition_applyFill, hpos]
    exact applyFillPos_flip s a r q p f.symbol f hs hsell hq hp hflip hgap
  · intro pf2 g hg
    rw [getPosition_applyFill]
    unfold applyFillPos
    dsimp only
    rw [cleanupStep_realized, openStep_realized, closeStep_realized _ _ _ hg]

/-- C1 counterexample: long 10 @ 100, then sell `10 + 1e-11` @ 110 — a sell
with `q > s` — leaves the position flat (size 0), not short `q - s`: the
claim's unrestricted flip shape fails in the band `0 < q - s ≤ 1e-10`. -/
theorem flip_correctness_counterexample :
    ((((Portfolio.init 100000).applyFill (mkFill true 100 10 0)).applyFill
        (mkFill false 110 (10 + 1 / 10 ^ 11) 0)).getPosition "X").size = 0 ∧
    ((0 : ℚ) ≠ -((10 + 1 / 10 ^ 11) - 10)) := by
  constructor
  · norm_num [Portfolio.init, Portfolio.applyFill, Portfolio.getPosition, applyFillPos,
      closeStep, openStep, cleanupStep, mkFill, Fill.signedSize, alookup_nil, alookup_cons,
      aupdate_nil, aupdate_cons, eps10, min_def, abs_eq_max_neg, max_def]
  · norm_num

/-- C6: from a flat position, buying `q` at `p` and then selling `q` at `p`
with zero fees returns the position size to exactly zero and cash to
exactly its pre-trade value. -/
theorem round_trip (pf : Portfolio) (f1 f2 : Fill)
    (hsym : f1.symbol = f2.symbol)
    (hb1 : f1.is_buy = true) (hb2 : f2.is_buy = false)
    (hq : f2.size = f1.size) (hp : f2.price = f1.price)
    (hfee1 : f1.fee = 0) (hfee2 : f2.fee = 0)
    (hflat : (pf.getPosition f1.symbol).size = 0) :
    (((pf.applyFill f1).applyFill f2).getPosition f1.symbol).size = 0 ∧
    ((pf.applyFill f1).applyFill f2).cash = pf.cash := by
  have hsg : f2.signedSize = -f1.signedSize := by
    simp [Fill.signedSize, hb1, hb2, hq]
  constructor
  · have e1 : ((pf.applyFill f1).applyFill f2).getPosition f1.symbol
        = applyFillPos (applyFillPos (pf.getPosition f1.symbol) f1) f2 := by
      rw [hsym, getPosition_applyFill, ← hsym, getPosition_applyFill]
    rw [e1, applyFillPos_flat_open _ f1 hflat]
    by_cases hcase : eps10 < |f1.signedSize|
    · rw [if_pos hcase]
      have hne : f1.signedSize ≠ 0 := by
        intro h0; rw [h0, abs_zero] at hcase
        exact absurd hcase (not_lt.mpr eps10_pos.le)
      rw [applyFillPos_full_close _ f2 hne (by rw [hsg])]
    · rw [if_neg hcase]
      rw [applyFillPos_flat_open _ f2 rfl]
      have h2 : ¬ eps10 < |f2.signedSize| := by
        rw [abs_signedSize, hq, ← abs_signedSize f1]; exact hcase
      rw [if_neg h2]
  · rw [applyFill_cash, applyFill_cash, hfee1, hfee2, hsg, hp]
    ring


/-- C7 (amended): adding a same-direction fill of size `q` with
`q > 1e-10` to a position of size `s ≠ 0` yields size `s + signed` and
average price `(a * |s| + p * q) / |s + signed|`.  (A same-direction fill
with `q ≤ 1e-10` is below the open-threshold and leaves the position
unchanged — see the counterexample.) -/
theorem weighted_average (pf : Portfolio) (f : Fill) (s a r : ℚ)
    (hpos : pf.getPosition f.symbol = ⟨f.symbol, s, a, r⟩)
    (hsame : 0 < s * f.signedSize) (hq : eps10 < f.size) :
    (pf.applyFill f).getPosition f.symbol
      = ⟨f.symbol, s + f.signedSize,
         (a * |s| + f.price * f.size) / |s + f.signedSize|, r⟩ := by
  rw [getPosition_applyFill, hpos]
  exact applyFillPos_same_direction ⟨f.symbol, s, a, r⟩ f hsame hq

/-- C7 counterexample: on a long position of 10 @ 100, a same-direction buy
of exactly `1e-10` @ 200 leaves size and average price unchanged (10 and
100), while the claim's formula would give size `10 + 1e-10`. -/
theorem weighted_average_counterexample :
    (((Portfolio.init 100000).applyFill (mkFill true 100 10 0)).applyFill
        (mkFill true 200 (1 / 10 ^ 10) 0)).getPosition "X"
      = ⟨"X", 10, 100, 0⟩ ∧ (10 : ℚ) ≠ 10 + 1 / 10 ^ 10 := by
  constructor
  · norm_num [Portfolio.init, Portfolio.applyFill, Portfolio.getPosition, applyFillPos,
      closeStep, openStep, cleanupStep, mkFill, Fill.signedSize, alookup_nil, alookup_cons,
      aupdate_nil, aupdate_cons, eps10, min_def, abs_eq_max_neg, max_def]
  · norm_num

theorem flip_correctness_witness :
    (((Portfolio.init 100000).applyFill (mkFill true 100 10 0)).applyFill
        (mkFill false 110 15 0)).getPosition "X"
      = ⟨"X", -(15 - 10), 110, 0 + 10 * (110 - 100)⟩ := by
  refine (flip_correctness ((Portfolio.init 100000).applyFill (mkFill true 100 10 0))
    (mkFill false 110 15 0) 10 100 0 15 110 ?_ (by norm_num) rfl rfl rfl (by norm_num)
    (by norm_num [eps10])).1
  norm_num [Portfolio.init, Portfolio.applyFill, Portfolio.getPosition, applyFillPos,
    closeStep, openStep, cleanupStep, mkFill, Fill.signedSize, alookup_nil, alookup_cons,
    aupdate_nil, aupdate_cons, eps10, min_def, abs_eq_max_neg, max_def]

theorem round_trip_witness :
    ((((Portfolio.init 7).applyFill (mkFill true 100 10 0)).applyFill
        (mkFill false 100 10 0)).getPosition "X").size = 0 ∧
    (((Portfolio.init 7).applyFill (mkFill true 100 10 0)).applyFill
        (mkFill false 100 10 0)).cash = 7 := by
  exact round_trip (Portfolio.init 7) (mkFill true 100 10 0) (mkFill false 100 10 0)
    rfl rfl rfl rfl rfl rfl rfl rfl

theorem weighted_average_witness :
    (((Portfolio.init 100000).applyFill (mkFill true 100 10 0)).applyFill
        (mkFill true 200 10 0)).getPosition "X" = ⟨"X", 20, 150, 0⟩ := by
  have h := weighted_average ((Portfolio.init 100000).applyFill (mkFill true 100 10 0))
    (mkFill true 200 10 0) 10 100 0
    (by norm_num [Portfolio.init, Portfolio.applyFill, Portfolio.getPosition, applyFillPos,
      closeStep, openStep, cleanupStep, mkFill, Fill.signedSize, alookup_nil, alookup_cons,
      aupdate_nil, aupdate_cons, eps10, min_def, abs_eq_max_neg, max_def])
    (by norm_num [mkFill, Fill.signedSize])
    (by norm_num [mkFill, eps10])
  norm_num [mkFill, Fill.signedSize, abs_eq_max_neg, max_def] at h
  exact h

theorem cash_conservation_witness :
    (([mkFill false 100 10 0].foldl Portfolio.applyFill (Portfolio.init 500)).cash = 1500) := by
  have h := (cash_conservation (Portfolio.init 500) (mkFill false 100 10 0)
    [mkFill false 100 10 0]).2
    (by intro g hg; rw [List.mem_singleton] at hg; subst hg; rfl)
  rw [h]
  norm_num [mkFill, Fill.signedSize, Portfolio.init]

theorem epsilon_closure_witness :
    epsInvariant ((Portfolio.init 0).applyFill (mkFill true 100 (1 / 10 ^ 11) 0)) := by
  exact (epsilon_closure (Portfolio.init 0) (mkFill true 100 (1 / 10 ^ 11) 0)).1
    (by intro p hp; simp [Portfolio.init] at hp)

theorem silent_drop_missing_mark_witness :
    Broker.submitOrder ⟨1 / 1000, 0, [], Portfolio.init 100000⟩
      ⟨fun _ => 0, fun _ => 0, fun _ => ""⟩ ⟨"o1", "X", true, 100, 1⟩ [("Y", 5)] 0 0
      = (none, ⟨1 / 1000, 0, [], Portfolio.init 100000⟩, 0, 0) := by
  exact silent_drop_missing_mark _ _ _ _ 0 0 rfl

theorem zero_slippage_price_and_proportional_fee_witness :
    ((Broker.executeOrder ⟨1 / 1000, 0, [], Portfolio.init 100000⟩
        ⟨fun _ => 0, fun _ => 0, fun _ => ""⟩ ⟨"o1", "X", true, 100, 1⟩ [("X", 42)] 0 0).1.map
      Fill.price = some 42) := by
  exact (zero_slippage_price_and_proportional_fee ⟨1 / 1000, 0, [], Portfolio.init 100000⟩
    ⟨fun _ => 0, fun _ => 0, fun _ => ""⟩ ⟨"o1", "X", true, 100, 1⟩ [("X", 42)] 0 0 42
    rfl rfl).1.1

/-- C10: the keyword sets used by the core's `Fill(...)` and `Candle(...)`
constructor calls are inconsistent with the fields declared by the slotted
dataclasses in models.py, so both calls raise `TypeError`; consequently,
whenever a mark price is available, `execute_order` raises instead of
returning a fill. -/
theorem models_constructor_mismatch :
    constructionRaises fillDeclaredFields brokerFillKeywords = true ∧
    constructionRaises candleDeclaredFields engineCandleKeywords = true ∧
    (∀ (b : Broker) (env : Env) (o : Order) (mp : List (String × ℚ)) (k c : ℕ) (mark : ℚ),
      alookup mp o.symbol = some mark →
      Broker.executeOrderChecked b env o mp k c
        = Except.error "TypeError: unexpected keyword argument for Fill()") := by
  have hcr : constructionRaises fillDeclaredFields brokerFillKeywords = true := by decide
  refine ⟨hcr, by decide, ?_⟩
  intro b env o mp k c mark hm
  unfold Broker.executeOrderChecked
  rw [hm]
  simp [hcr]

theorem models_constructor_mismatch_witness :
    Broker.executeOrderChecked ⟨1 / 1000, 0, [], Portfolio.init 100000⟩
      ⟨fun _ => 0, fun _ => 0, fun _ => ""⟩ ⟨"o1", "X", true, 100, 1⟩ [("X", 42)] 0 0
      = Except.error "TypeError: unexpected keyword argument for Fill()" := by
  exact models_constructor_mismatch.2.2 ⟨1 / 1000, 0, [], Portfolio.init 100000⟩
    ⟨fun _ => 0, fun _ => 0, fun _ => ""⟩ ⟨"o1", "X", true, 100, 1⟩ [("X", 42)] 0 0 42 rfl

/-! ### Key-set and lookup lemmas for the run-level proofs -/

theorem alookup_some_mem {α : Type} {l : List (String × α)} {k : String} {v : α}
    (h : alookup l k = some v) : (k, v) ∈ l := by
  induction l with
  | nil => simp [alookup_nil] at h
  | cons p rest ih =>
    rw [alookup_cons] at h
    by_cases hp : p.1 = k
    · rw [if_pos hp] at h
      obtain ⟨p1, p2⟩ := p
      simp only at hp h
      subst hp
      injection h with h2
      subst h2
      exact List.mem_cons_self _ _
    · rw [if_neg hp] at h
      exact List.mem_cons_of_mem _ (ih h)

theorem mem_alookup_of_nodup {α : Type} {l : List (String × α)}
    (hnd : (l.map Prod.fst).Nodup) {p : String × α} (hp : p ∈ l) :
    alookup l p.1 = some p.2 := by
  induction l with
  | nil => simp at hp
  | cons q rest ih =>
    rw [List.map_cons, List.nodup_cons] at hnd
    rcases List.mem_cons.mp hp with rfl | hp'
    · rw [alookup_cons, if_pos rfl]
    · rw [alookup_cons, if_neg ?_]
      · exact ih hnd.2 hp'
      · intro hq
        exact hnd.1 (hq ▸ List.mem_map_of_mem Prod.fst hp')

theorem keys_aupdate_of_mem {α : Type} {l : List (String × α)} {k : String} (v : α)
    (h : k ∈ l.map Prod.fst) : (aupdate l k v).map Prod.fst = l.map Prod.fst := by
  induction l with
  | nil => simp at h
  | cons p rest ih =>
    rw [aupdate_cons]
    by_cases hp : p.1 = k
    · rw [if_pos hp, List.map_cons, List.map_cons, hp]
    · rw [if_neg hp, List.map_cons, List.map_cons, ih]
      rw [List.map_cons] at h
      rcases List.mem_cons.mp h with h | h
      · exact absurd h.symm hp
      · exact h

theorem keys_mem_aupdate {α : Type} {l : List (String × α)} {k x : String} {v : α}
    (h : x ∈ (aupdate l k v).map Prod.fst) : x ∈ l.map Prod.fst ∨ x = k := by
  rcases List.mem_map.mp h with ⟨p, hp, rfl⟩
  rcases mem_aupdate p hp with h' | rfl
  · exact Or.inl (List.mem_map_of_mem Prod.fst h')
  · exact Or.inr rfl

theorem nodup_keys_aupdate {α : Type} {l : List (String × α)} {k : String} {v : α}
    (h : (l.map Prod.fst).Nodup) : ((aupdate l k v).map Prod.fst).Nodup := by
  induction l with
  | nil => simp [aupdate_nil]
  | cons p rest ih =>
    rw [List.map_cons, List.nodup_cons] at h
    rw [aupdate_cons]
    by_cases hp : p.1 = k
    · rw [if_pos hp, List.map_cons, List.nodup_cons]
      exact ⟨hp ▸ h.1, h.2⟩
    · rw [if_neg hp, List.map_cons, List.nodup_cons]
      refine ⟨fun hmem => ?_, ih h.2⟩
      rcases keys_mem_aupdate hmem with h' | h'
      · exact h.1 h'
      · exact hp h'

/-! ### Characterizations of the execution path -/

theorem executeOrder_none (b : Broker) (env : Env) (o : Order)
    (mp : List (String × ℚ)) (k c : ℕ) (h : alookup mp o.symbol = none) :
    b.executeOrder env o mp k c = (none, k, c) := by
  unfold Broker.executeOrder
  rw [h]

theorem executeOrder_some_fields (b : Broker) (env : Env) (o : Order)
    (mp : List (String × ℚ)) (k c : ℕ) {f : Fill} {k' c' : ℕ}
    (h : b.executeOrder env o mp k c = (some f, k', c')) :
    f.symbol = o.symbol ∧ f.is_buy = o.is_buy ∧ f.size = o.size ∧
    alookup mp o.symbol ≠ none := by
  unfold Broker.executeOrder at h
  cases halook : alookup mp o.symbol with
  | none => rw [halook] at h; simp at h
  | some m =>
    rw [halook] at h
    simp only [Prod.mk.injEq, Option.some.injEq] at h
    obtain ⟨hf, -, -⟩ := h
    subst hf
    exact ⟨rfl, rfl, rfl, by simp⟩

theorem executeOrder_isSome (b : Broker) (env : Env) (o : Order)
    (mp : List (String × ℚ)) (k c : ℕ) {m : ℚ} (h : alookup mp o.symbol = some m) :
    ∃ f k' c', b.executeOrder env o mp k c = (some f, k', c') := by
  unfold Broker.executeOrder
  rw [h]
  exact ⟨_, _, _, rfl⟩

theorem submitOrder_broker (b : Broker) (env : Env) (o : Order)
    (mp : List (String × ℚ)) (k c : ℕ) :
    (b.submitOrder env o mp k c).2.1 = b ∨
    (∃ f, (b.submitOrder env o mp k c).1 = some f ∧
      (b.submitOrder env o mp k c).2.1 =
        { b with fills := b.fills ++ [f], portfolio := b.portfolio.applyFill f } ∧
      f.symbol = o.symbol ∧ f.is_buy = o.is_buy ∧ f.size = o.size ∧
      alookup mp o.symbol ≠ none) := by
  unfold Broker.submitOrder
  cases hex : b.executeOrder env o mp k c with
  | mk fst snd =>
    cases fst with
    | none => left; rfl
    | some f =>
      right
      obtain ⟨k', c'⟩ := snd
      obtain ⟨h1, h2, h3, h4⟩ := executeOrder_some_fields b env o mp k c hex
      exact ⟨f, rfl, rfl, h1, h2, h3, h4⟩

theorem eps8_pos : (0 : ℚ) < eps8 := by norm_num [eps8]

theorem submitOrder_of_mark (b : Broker) (env : Env) (o : Order)
    (mp : List (String × ℚ)) (k c : ℕ) {m : ℚ} (h : alookup mp o.symbol = some m) :
    ∃ f, (b.submitOrder env o mp k c).1 = some f ∧
      (b.submitOrder env o mp k c).2.1
        = { b with fills := b.fills ++ [f], portfolio := b.portfolio.applyFill f } ∧
      f.symbol = o.symbol ∧ f.is_buy = o.is_buy ∧ f.size = o.size := by
  obtain ⟨f, k', c', hex⟩ := executeOrder_isSome b env o mp k c h
  obtain ⟨h1, h2, h3, -⟩ := executeOrder_some_fields b env o mp k c hex
  unfold Broker.submitOrder
  rw [hex]
  exact ⟨f, rfl, rfl, h1, h2, h3⟩

/-! ### clampPos lemmas -/

theorem clampPos_strategies {σ : Type} (st : EngineState σ) (sym : String) :
    (clampPos st sym).strategies = st.strategies := by
  unfold clampPos; dsimp only; split_ifs <;> rfl

theorem clampPos_fills {σ : Type} (st : EngineState σ) (sym : String) :
    (clampPos st sym).broker.fills = st.broker.fills := by
  unfold clampPos; dsimp only; split_ifs <;> rfl

theorem clampPos_lookup_ne {σ : Type} (st : EngineState σ) (sym x : String) (hx : x ≠ sym) :
    alookup (clampPos st sym).broker.portfolio.positions x
      = alookup st.broker.portfolio.positions x := by
  unfold clampPos; dsimp only; split_ifs with h
  · exact alookup_aupdate_ne _ _ hx
  · rfl

theorem clampPos_small {σ : Type} (st : EngineState σ) (sym : String)
    (h : |(st.broker.portfolio.getPosition sym).size| < eps8) :
    ((clampPos st sym).broker.portfolio.getPosition sym).size = 0 := by
  unfold clampPos
  dsimp only
  rw [if_pos h]
  simp only [Portfolio.getPosition, alookup_aupdate_self, Option.getD_some]

theorem clampPos_big {σ : Type} (st : EngineState σ) (sym : String)
    (h : ¬ |(st.broker.portfolio.getPosition sym).size| < eps8) :
    clampPos st sym = st := by
  unfold clampPos
  dsimp only
  rw [if_neg h]

/-! ### closeOneSubmit lemmas -/

theorem closeOneSubmit_small {σ : Type} (env : Env) (mp : List (String × ℚ))
    (st : EngineState σ) (sym : String)
    (h : ¬ eps8 < |(st.broker.portfolio.getPosition sym).size|) :
    closeOneSubmit env mp st sym = st := by
  unfold closeOneSubmit
  dsimp only
  rw [if_neg h]

theorem closeOneSubmit_big {σ : Type} (env : Env) (mp : List (String × ℚ))
    (st : EngineState σ) (sym : String) {m : ℚ}
    (hbig : eps8 < |(st.broker.portfolio.getPosition sym).size|)
    (hmark : alookup mp sym = some m) :
    ∃ f : Fill, f.symbol = sym ∧
      f.is_buy = decide ((st.broker.portfolio.getPosition sym).size < 0) ∧
      f.size = |(st.broker.portfolio.getPosition sym).size| ∧
      closeOneSubmit env mp st sym =
        { st with
            strategies := notifyAll st.strategies f
            broker := { st.broker with
              fills := st.broker.fills ++ [f]
              portfolio := st.broker.portfolio.applyFill f }
            k := (st.broker.submitOrder env
              { id := "CLOSE_" ++ env.uuidStr st.u, symbol := sym,
                is_buy := (st.broker.portfolio.getPosition sym).size < 0,
                price := (alookup mp sym).getD (st.broker.portfolio.getPosition sym).avg_price,
                size := |(st.broker.portfolio.getPosition sym).size| } mp st.k st.c).2.2.1
            c := (st.broker.submitOrder env
              { id := "CLOSE_" ++ env.uuidStr st.u, symbol := sym,
                is_buy := (st.broker.portfolio.getPosition sym).size < 0,
                price := (alookup mp sym).getD (st.broker.portfolio.getPosition sym).avg_price,
                size := |(st.broker.portfolio.getPosition sym).size| } mp st.k st.c).2.2.2
            u := st.u + 1 } := by
  obtain ⟨f, hf1, hf2, hsym, hbuy, hsize⟩ := submitOrder_of_mark st.broker env
    { id := "CLOSE_" ++ env.uuidStr st.u, symbol := sym,
      is_buy := (st.broker.portfolio.getPosition sym).size < 0,
      price := (alookup mp sym).getD (st.broker.portfolio.getPosition sym).avg_price,
      size := |(st.broker.portfolio.getPosition sym).size| } mp st.k st.c hmark
  refine ⟨f, hsym, hbuy, hsize, ?_⟩
  unfold closeOneSubmit
  dsimp only
  rw [if_pos hbig, hf1, hf2]

/-! ### closeOne lemmas -/

theorem closeOneSubmit_portfolio_char {σ : Type} (env : Env) (mp : List (String × ℚ))
    (st : EngineState σ) (sym : String) :
    (closeOneSubmit env mp st sym).broker.portfolio = st.broker.portfolio ∨
    ∃ f : Fill, f.symbol = sym ∧
      (closeOneSubmit env mp st sym).broker.portfolio = st.broker.portfolio.applyFill f := by
  unfold closeOneSubmit
  dsimp only
  split_ifs with h
  · rcases submitOrder_broker st.broker env
        { id := "CLOSE_" ++ env.uuidStr st.u, symbol := sym,
          is_buy := (st.broker.portfolio.getPosition sym).size < 0,
          price := (alookup mp sym).getD (st.broker.portfolio.getPosition sym).avg_price,
          size := |(st.broker.portfolio.getPosition sym).size| } mp st.k st.c with
      hb | ⟨f, hf1, hb, hsym, -, -, -⟩
    · left; rw [hb]
    · right; refine ⟨f, hsym, ?_⟩; rw [hb]
  · left; rfl

theorem closeOne_lookup_ne {σ : Type} (env : Env) (mp : List (String × ℚ))
    (st : EngineState σ) (sym x : String) (hx : x ≠ sym) :
    alookup (closeOne env mp st sym).broker.portfolio.positions x
      = alookup st.broker.portfolio.positions x := by
  unfold closeOne
  rw [clampPos_lookup_ne _ _ _ hx]
  rcases closeOneSubmit_portfolio_char env mp st sym with h | ⟨f, hsym, h⟩
  · rw [h]
  · rw [h]
    simp only [Portfolio.applyFill]
    exact alookup_aupdate_ne _ _ (hsym ▸ hx)

theorem closeOne_getPosition_ne {σ : Type} (env : Env) (mp : List (String × ℚ))
    (st : EngineState σ) (sym x : String) (hx : x ≠ sym) :
    (closeOne env mp st sym).broker.portfolio.getPosition x
      = st.broker.portfolio.getPosition x := by
  unfold Portfolio.getPosition
  rw [closeOne_lookup_ne env mp st sym x hx]

/-- The closing fill of a large-enough position negates its signed size. -/
theorem closing_fill_signedSize (s : ℚ) (f : Fill)
    (hbuy : f.is_buy = decide (s < 0)) (hsize : f.size = |s|) :
    f.signedSize = -s := by
  unfold Fill.signedSize
  rw [hbuy, hsize]
  by_cases hd : s < 0
  · simp [hd, abs_of_neg hd]
  · simp [hd, abs_of_nonneg (not_lt.mp hd)]

theorem closeOne_self {σ : Type} (env : Env) (mp : List (String × ℚ))
    (st : EngineState σ) (sym : String) (hmark : alookup mp sym ≠ none) :
    ((closeOne env mp st sym).broker.portfolio.getPosition sym).size = 0 ∨
    (closeOne env mp st sym = st ∧
      |(st.broker.portfolio.getPosition sym).size| = eps8) := by
  by_cases hbig : eps8 < |(st.broker.portfolio.getPosition sym).size|
  · left
    obtain ⟨m, hm⟩ := Option.ne_none_iff_exists'.mp hmark
    obtain ⟨f, hsym, hbuy, hsize, heq⟩ := closeOneSubmit_big env mp st sym hbig hm
    have hne : (st.broker.portfolio.getPosition sym).size ≠ 0 := by
      intro h0; rw [h0, abs_zero] at hbig; exact absurd hbig (not_lt.mpr eps8_pos.le)
    have hsg := closing_fill_signedSize _ f hbuy hsize
    have hpos' : ((st.broker.portfolio.applyFill f).getPosition sym).size = 0 := by
      rw [← hsym, getPosition_applyFill,
        applyFillPos_full_close _ f (by rw [hsym]; exact hne) (by rw [hsym]; exact hsg)]
    unfold closeOne
    rw [heq]
    apply clampPos_small
    have hb : (({ st with
        strategies := notifyAll st.strategies f
        broker := { st.broker with
          fills := st.broker.fills ++ [f]
          portfolio := st.broker.portfolio.applyFill f }
        k := (st.broker.submitOrder env
          { id := "CLOSE_" ++ env.uuidStr st.u, symbol := sym,
            is_buy := (st.broker.portfolio.getPosition sym).size < 0,
            price := (alookup mp sym).getD (st.broker.portfolio.getPosition sym).avg_price,
            size := |(st.broker.portfolio.getPosition sym).size| } mp st.k st.c).2.2.1
        c := (st.broker.submitOrder env
          { id := "CLOSE_" ++ env.uuidStr st.u, symbol := sym,
            is_buy := (st.broker.portfolio.getPosition sym).size < 0,
            price := (alookup mp sym).getD (st.broker.portfolio.getPosition sym).avg_price,
            size := |(st.broker.portfolio.getPosition sym).size| } mp st.k st.c).2.2.2
        u := st.u + 1 } : EngineState σ)).broker.portfolio
        = st.broker.portfolio.applyFill f := rfl
    rw [hb, hpos', abs_zero]
    exact eps8_pos
  · unfold closeOne
    rw [closeOneSubmit_small env mp st sym hbig]
    by_cases hsmall : |(st.broker.portfolio.getPosition sym).size| < eps8
    · left; exact clampPos_small st sym hsmall
    · right
      exact ⟨clampPos_big st sym hsmall,
        le_antisymm (not_lt.mp hbig) (not_lt.mp hsmall)⟩

theorem closeOne_fills_spec {σ : Type} (env : Env) (mp : List (String × ℚ))
    (st : EngineState σ) (sym : String) {m : ℚ} (hm : alookup mp sym = some m)
    (hbig : eps8 < |(st.broker.portfolio.getPosition sym).size|) :
    ∃ f : Fill, f.symbol = sym ∧
      f.is_buy = decide ((st.broker.portfolio.getPosition sym).size < 0) ∧
      f.size = |(st.broker.portfolio.getPosition sym).size| ∧
      (closeOne env mp st sym).broker.fills = st.broker.fills ++ [f] ∧
      (closeOne env mp st sym).strategies = notifyAll st.strategies f ∧
      ((closeOne env mp st sym).broker.portfolio.getPosition sym).size = 0 := by
  obtain ⟨f, hsym, hbuy, hsize, heq⟩ := closeOneSubmit_big env mp st sym hbig hm
  have hmark : alookup mp sym ≠ none := by rw [hm]; simp
  refine ⟨f, hsym, hbuy, hsize, ?_, ?_, ?_⟩
  · unfold closeOne
    rw [heq, clampPos_fills]
  · unfold closeOne
    rw [heq, clampPos_strategies]
  · rcases closeOne_self env mp st sym hmark with h | ⟨-, habs⟩
    · exact h
    · rw [habs] at hbig
      exact absurd hbig (lt_irrefl eps8)

/-! ### closeAllPositions lemmas -/

theorem closeAll_untouched {σ : Type} (env : Env) (mp : List (String × ℚ)) :
    ∀ (keys : List String) (st : EngineState σ) (x : String), x ∉ keys →
      (closeAllPositions env mp keys st).broker.portfolio.getPosition x
        = st.broker.portfolio.getPosition x := by
  intro keys
  induction keys with
  | nil => intro st x _; rfl
  | cons sym rest ih =>
    intro st x hx
    rw [closeAllPositions]
    rw [ih _ _ (fun h => hx (List.mem_cons_of_mem _ h))]
    exact closeOne_getPosition_ne env mp st sym x
      (fun h => hx (h ▸ List.mem_cons_self _ _))

theorem closeAll_flattens {σ : Type} (env : Env) (mp : List (String × ℚ)) :
    ∀ (keys : List String) (st : EngineState σ),
      (∀ s ∈ keys, alookup mp s ≠ none) → keys.Nodup →
      ∀ s ∈ keys,
        ((closeAllPositions env mp keys st).broker.portfolio.getPosition s).size = 0 ∨
        |((closeAllPositions env mp keys st).broker.portfolio.getPosition s).size| = eps8 := by
  intro keys
  induction keys with
  | nil => intro st _ _ s hs; simp at hs
  | cons sym rest ih =>
    intro st hmk hnd s hs
    rw [closeAllPositions]
    rcases List.mem_cons.mp hs with rfl | hs'
    · have hnotin : s ∉ rest := (List.nodup_cons.mp hnd).1
      rw [closeAll_untouched env mp rest _ s hnotin]
      rcases closeOne_self env mp st s (hmk s (List.mem_cons_self _ _)) with h | ⟨heq, habs⟩
      · exact Or.inl h
      · right; rw [heq]; exact habs
    · exact ih _ (fun t ht => hmk t (List.mem_cons_of_mem _ ht))
        (List.nodup_cons.mp hnd).2 s hs'

theorem clampPos_keys {σ : Type} (st : EngineState σ) (sym : String)
    (h : sym ∈ st.broker.portfolio.positions.map Prod.fst) :
    (clampPos st sym).broker.portfolio.positions.map Prod.fst
      = st.broker.portfolio.positions.map Prod.fst := by
  unfold clampPos
  dsimp only
  split_ifs with hc
  · exact keys_aupdate_of_mem _ h
  · rfl

theorem applyFill_keys_of_mem (pf : Portfolio) (f : Fill)
    (h : f.symbol ∈ pf.positions.map Prod.fst) :
    (pf.applyFill f).positions.map Prod.fst = pf.positions.map Prod.fst := by
  simp only [Portfolio.applyFill]
  exact keys_aupdate_of_mem _ h

theorem closeOne_keys {σ : Type} (env : Env) (mp : List (String × ℚ))
    (st : EngineState σ) (sym : String)
    (h : sym ∈ st.broker.portfolio.positions.map Prod.fst) :
    (closeOne env mp st sym).broker.portfolio.positions.map Prod.fst
      = st.broker.portfolio.positions.map Prod.fst := by
  unfold closeOne
  rcases closeOneSubmit_portfolio_char env mp st sym with hch | ⟨f, hsym, hch⟩
  · rw [clampPos_keys _ sym (by rw [hch]; exact h), hch]
  · have hkeys : (closeOneSubmit env mp st sym).broker.portfolio.positions.map Prod.fst
        = st.broker.portfolio.positions.map Prod.fst := by
      rw [hch]
      exact applyFill_keys_of_mem _ f (hsym ▸ h)
    rw [clampPos_keys _ sym (by rw [hkeys]; exact h), hkeys]

theorem closeAll_keys {σ : Type} (env : Env) (mp : List (String × ℚ)) :
    ∀ (keys : List String) (st : EngineState σ),
      (∀ s ∈ keys, s ∈ st.broker.portfolio.positions.map Prod.fst) →
      (closeAllPositions env mp keys st).broker.portfolio.positions.map Prod.fst
        = st.broker.portfolio.positions.map Prod.fst := by
  intro keys
  induction keys with
  | nil => intro st _; rfl
  | cons sym rest ih =>
    intro st hmem
    rw [closeAllPositions]
    have h1 := closeOne_keys env mp st sym (hmem sym (List.mem_cons_self _ _))
    rw [ih _ (fun t ht => by rw [h1]; exact hmem t (List.mem_cons_of_mem _ ht)), h1]

/-! ### Run-level invariants -/

theorem applyFill_posKeysSub {pf : Portfolio} {S : List String} {f : Fill}
    (h : posKeysSub pf S) (hf : f.symbol ∈ S) : posKeysSub (pf.applyFill f) S := by
  intro x hx
  simp only [Portfolio.applyFill] at hx
  rcases keys_mem_aupdate hx with h' | rfl
  · exact h x h'
  · exact hf

theorem applyFill_posKeysNodup {pf : Portfolio} {f : Fill}
    (h : posKeysNodup pf) : posKeysNodup (pf.applyFill f) := by
  unfold posKeysNodup at h ⊢
  simp only [Portfolio.applyFill]
  exact nodup_keys_aupdate h

theorem submitOrder_inv {S : List String} (b : Broker) (env : Env) (o : Order)
    (mp : List (String × ℚ)) (k c : ℕ) (hmp : ∀ p ∈ mp, p.1 ∈ S)
    (h1 : posKeysSub b.portfolio S) (h2 : posKeysNodup b.portfolio) :
    posKeysSub (b.submitOrder env o mp k c).2.1.portfolio S ∧
    posKeysNodup (b.submitOrder env o mp k c).2.1.portfolio := by
  rcases submitOrder_broker b env o mp k c with hb | ⟨f, -, hb, hsym, -, -, hmark⟩
  · rw [hb]; exact ⟨h1, h2⟩
  · rw [hb]
    have hfS : f.symbol ∈ S := by
      obtain ⟨v, hv⟩ := Option.ne_none_iff_exists'.mp hmark
      rw [hsym]
      exact hmp _ (alookup_some_mem hv)
    exact ⟨applyFill_posKeysSub h1 hfS, applyFill_posKeysNodup h2⟩

theorem dispatchCandle_inv {σ : Type} {S : List String} (env : Env) (candle : Candle)
    (symbol : String) (mp : List (String × ℚ)) (hmp : ∀ p ∈ mp, p.1 ∈ S) :
    ∀ (strats : List (Strategy σ)) (b : Broker) (k c : ℕ),
      posKeysSub b.portfolio S → posKeysNodup b.portfolio →
      posKeysSub (dispatchCandle env candle symbol mp strats b k c).2.1.portfolio S ∧
      posKeysNodup (dispatchCandle env candle symbol mp strats b k c).2.1.portfolio := by
  intro strats
  induction strats with
  | nil => intro b k c h1 h2; exact ⟨h1, h2⟩
  | cons strat rest ih =>
    intro b k c h1 h2
    rw [dispatchCandle]
    cases hoc : strat.on_candle strat.state candle symbol with
    | mk o? s' =>
      cases o? with
      | none =>
        dsimp only
        exact ih b k c h1 h2
      | some o =>
        dsimp only
        cases hs : b.submitOrder env o mp k c with
        | mk f? rest2 =>
          have hsub := submitOrder_inv (S := S) b env o mp k c hmp h1 h2
          rw [hs] at hsub
          obtain ⟨b', k', c'⟩ := rest2
          cases f? with
          | none => exact ih b' k' c' hsub.1 hsub.2
          | some f => exact ih b' k' c' hsub.1 hsub.2

theorem stepSymbols_inv {σ : Type} {S : List String} (env : Env)
    (data : List (String × List Row)) (idx : ℕ) :
    ∀ (syms : List String) (strats : List (Strategy σ)) (b : Broker) (k c : ℕ)
      (mp : List (String × ℚ)),
      (∀ p ∈ mp, p.1 ∈ S) → (∀ s ∈ syms, s ∈ S) →
      posKeysSub b.portfolio S → posKeysNodup b.portfolio →
      (posKeysSub (stepSymbols env data idx syms strats b k c mp).1.2.1.portfolio S ∧
       posKeysNodup (stepSymbols env data idx syms strats b k c mp).1.2.1.portfolio) ∧
      (∀ p ∈ (stepSymbols env data idx syms strats b k c mp).2, p.1 ∈ S) ∧
      (∀ x, alookup mp x ≠ none →
        alookup (stepSymbols env data idx syms strats b k c mp).2 x ≠ none) ∧
      (∀ s ∈ syms, alookup (stepSymbols env data idx syms strats b k c mp).2 s ≠ none) := by
  intro syms
  induction syms with
  | nil =>
    intro strats b k c mp hmp _ h1 h2
    exact ⟨⟨h1, h2⟩, hmp, fun x hx => hx, by simp⟩
  | cons symbol rest ih =>
    intro strats b k c mp hmp hsyms h1 h2
    rw [stepSymbols]
    dsimp only
    have hsymS : symbol ∈ S := hsyms symbol (List.mem_cons_self _ _)
    set mp1 := aupdate mp symbol
      (((alookup data symbol).getD []).getD idx default).close with hmp1def
    have hmp1 : ∀ p ∈ mp1, p.1 ∈ S := by
      intro p hp
      rcases mem_aupdate p hp with h' | rfl
      · exact hmp p h'
      · exact hsymS
    have hmono1 : ∀ x, alookup mp x ≠ none → alookup mp1 x ≠ none := by
      intro x hx
      by_cases hxs : x = symbol
      · subst hxs; rw [alookup_aupdate_self]; simp
      · rw [alookup_aupdate_ne _ _ hxs]; exact hx
    have hsym1 : alookup mp1 symbol ≠ none := by
      rw [alookup_aupdate_self]; simp
    cases hd : dispatchCandle env
        { symbol := symbol,
          timestamp := (((alookup data symbol).getD []).getD idx default).timestamp,
          open_ := (((alookup data symbol).getD []).getD idx default).open_,
          high := (((alookup data symbol).getD []).getD idx default).high,
          low := (((alookup data symbol).getD []).getD idx default).low,
          close := (((alookup data symbol).getD []).getD idx default).close,
          volume := (((alookup data symbol).getD []).getD idx default).volume.getD 0 }
        symbol mp1 strats b k c with
    | mk strats' rest3 =>
      obtain ⟨b', k', c'⟩ := rest3
      have hdinv := dispatchCandle_inv (S := S) env
        { symbol := symbol,
          timestamp := (((alookup data symbol).getD []).getD idx default).timestamp,
          open_ := (((alookup data symbol).getD []).getD idx default).open_,
          high := (((alookup data symbol).getD []).getD idx default).high,
          low := (((alookup data symbol).getD []).getD idx default).low,
          close := (((alookup data symbol).getD []).getD idx default).close,
          volume := (((alookup data symbol).getD []).getD idx default).volume.getD 0 }
        symbol mp1 hmp1 strats b k c h1 h2
      rw [hd] at hdinv
      have hrest := ih strats' b' k' c' mp1 hmp1
        (fun s hs => hsyms s (List.mem_cons_of_mem _ hs)) hdinv.1 hdinv.2
      refine ⟨hrest.1, hrest.2.1, ?_, ?_⟩
      · intro x hx
        exact hrest.2.2.1 x (hmono1 x hx)
      · intro s hs
        rcases List.mem_cons.mp hs with rfl | hs'
        · exact hrest.2.2.1 s hsym1
        · exact hrest.2.2.2 s hs'

theorem clampPos_inv {σ : Type} {S : List String} (st : EngineState σ) (sym : String)
    (hsymS : sym ∈ S) (h1 : posKeysSub st.broker.portfolio S)
    (h2 : posKeysNodup st.broker.portfolio) :
    posKeysSub (clampPos st sym).broker.portfolio S ∧
    posKeysNodup (clampPos st sym).broker.portfolio := by
  unfold clampPos
  dsimp only
  split_ifs with h
  · constructor
    · intro x hx
      rcases keys_mem_aupdate hx with h' | rfl
      · exact h1 x h'
      · exact hsymS
    · exact nodup_keys_aupdate h2
  · exact ⟨h1, h2⟩

theorem closeOne_inv {σ : Type} {S : List String} (env : Env) (mp : List (String × ℚ))
    (st : EngineState σ) (sym : String) (hsymS : sym ∈ S)
    (h1 : posKeysSub st.broker.portfolio S) (h2 : posKeysNodup st.broker.portfolio) :
    posKeysSub (closeOne env mp st sym).broker.portfolio S ∧
    posKeysNodup (closeOne env mp st sym).broker.portfolio := by
  unfold closeOne
  rcases closeOneSubmit_portfolio_char env mp st sym with hch | ⟨f, hsym, hch⟩
  · exact clampPos_inv _ sym hsymS (by rw [hch]; exact h1) (by rw [hch]; exact h2)
  · refine clampPos_inv _ sym hsymS ?_ ?_
    · rw [hch]; exact applyFill_posKeysSub h1 (hsym ▸ hsymS)
    · rw [hch]; exact applyFill_posKeysNodup h2

theorem closeAll_inv {σ : Type} {S : List String} (env : Env) (mp : List (String × ℚ)) :
    ∀ (keys : List String) (st : EngineState σ), (∀ s ∈ keys, s ∈ S) →
      posKeysSub st.broker.portfolio S → posKeysNodup st.broker.portfolio →
      posKeysSub (closeAllPositions env mp keys st).broker.portfolio S ∧
      posKeysNodup (closeAllPositions env mp keys st).broker.portfolio := by
  intro keys
  induction keys with
  | nil => intro st _ h1 h2; exact ⟨h1, h2⟩
  | cons sym rest ih =>
    intro st hkeys h1 h2
    rw [closeAllPositions]
    have hc := closeOne_inv (S := S) env mp st sym (hkeys sym (List.mem_cons_self _ _)) h1 h2
    exact ih _ (fun s hs => hkeys s (List.mem_cons_of_mem _ hs)) hc.1 hc.2

/-- At the final step, after the forced liquidation, every recorded position
is exactly flat or has absolute size exactly `1e-8`. -/
theorem runStep_last_spec {σ : Type} (env : Env) (symbols : List String)
    (data : List (String × List Row)) (total : ℕ) (st : EngineState σ)
    (h1 : posKeysSub st.broker.portfolio symbols)
    (h2 : posKeysNodup st.broker.portfolio) :
    ∃ snap,
      (runStep env symbols data total (total - 1) st).broker.portfolio.history.getLast?
          = some snap ∧
      snap.positions
        = (runStep env symbols data total (total - 1) st).broker.portfolio.positions ∧
      (∀ p ∈ snap.positions, p.2.size = 0 ∨ |p.2.size| = eps8) := by
  rcases hss : stepSymbols env data (total - 1) symbols st.strategies st.broker st.k st.c []
    with ⟨⟨strats', b', k', c'⟩, mp1⟩
  have hstep := stepSymbols_inv (S := symbols) env data (total - 1) symbols
    st.strategies st.broker st.k st.c [] (by simp [alookup_nil]) (fun s hs => hs) h1 h2
  rw [hss] at hstep
  obtain ⟨⟨hb1, hb2⟩, -, -, hcover⟩ := hstep
  unfold runStep
  rw [hss]
  dsimp only
  rw [if_pos rfl]
  set st1 : EngineState σ := { strategies := strats', broker := b', k := k', c := c', u := st.u }
    with hst1def
  have hb1' : posKeysSub st1.broker.portfolio symbols := hb1
  have hb2' : posKeysNodup st1.broker.portfolio := hb2
  set keysArg := st1.broker.portfolio.positions.map Prod.fst with hkeysdef
  set st2 := closeAllPositions env mp1 keysArg st1 with hst2def
  have hkeep : st2.broker.portfolio.positions.map Prod.fst = keysArg := by
    rw [hst2def]
    exact closeAll_keys env mp1 keysArg st1 (fun s hs => hs)
  have hflat : ∀ s ∈ keysArg,
      (st2.broker.portfolio.getPosition s).size = 0 ∨
      |(st2.broker.portfolio.getPosition s).size| = eps8 := by
    intro s hs
    rw [hst2def]
    exact closeAll_flattens env mp1 keysArg st1
      (fun t ht => hcover t (hb1' t ht)) hb2' s hs
  have hnd2 : posKeysNodup st2.broker.portfolio := by
    rw [hst2def]
    exact (closeAll_inv (S := symbols) env mp1 keysArg st1 (fun s hs => hb1' s hs) hb1' hb2').2
  refine ⟨⟨(((alookup data (symbols.headD "")).getD []).getD (total - 1) default).timestamp,
    st2.broker.portfolio.cash, st2.broker.portfolio.equity mp1,
    st2.broker.portfolio.positions⟩, ?_, rfl, ?_⟩
  · simp only [Portfolio.recordSnapshot]
    rw [List.getLast?_append]
    rfl
  · intro p hp
    have hkey : p.1 ∈ keysArg := by
      rw [← hkeep]
      exact List.mem_map_of_mem Prod.fst hp
    have hlook : alookup st2.broker.portfolio.positions p.1 = some p.2 :=
      mem_alookup_of_nodup hnd2 hp
    have hgp : st2.broker.portfolio.getPosition p.1 = p.2 := by
      unfold Portfolio.getPosition
      rw [hlook]
      rfl
    have := hflat p.1 hkey
    rw [hgp] at this
    exact this

theorem foldl_runStep_inv {σ : Type} (env : Env) (symbols : List String)
    (data : List (String × List Row)) (total : ℕ) :
    ∀ (l : List ℕ) (st : EngineState σ),
      posKeysSub st.broker.portfolio symbols → posKeysNodup st.broker.portfolio →
      posKeysSub
        (l.foldl (fun s idx => runStep env symbols data total idx s) st).broker.portfolio
        symbols ∧
      posKeysNodup
        (l.foldl (fun s idx => runStep env symbols data total idx s) st).broker.portfolio := by
  intro l
  induction l with
  | nil => intro st ha hb; exact ⟨ha, hb⟩
  | cons idx rest ih =>
    intro st ha hb
    rw [List.foldl_cons]
    have hstep : posKeysSub (runStep env symbols data total idx st).broker.portfolio symbols ∧
        posKeysNodup (runStep env symbols data total idx st).broker.portfolio := by
      rcases hss : stepSymbols env data idx symbols st.strategies st.broker st.k st.c []
        with ⟨⟨strats', b', k', c'⟩, mp1⟩
      have h := stepSymbols_inv (S := symbols) env data idx symbols
        st.strategies st.broker st.k st.c [] (by simp [alookup_nil]) (fun s hs => hs) ha hb
      rw [hss] at h
      obtain ⟨⟨hb1, hb2⟩, -, -, -⟩ := h
      unfold runStep
      rw [hss]
      dsimp only
      split_ifs with hidx
      · set st1 : EngineState σ :=
          { strategies := strats', broker := b', k := k', c := c', u := st.u }
        have h2 := closeAll_inv (S := symbols) env mp1
          (st1.broker.portfolio.positions.map Prod.fst) st1
          (fun s hs => hb1 s hs) hb1 hb2
        exact h2
      · exact ⟨hb1, hb2⟩
    exact ih _ hstep.1 hstep.2

/-- C3 (amended): on the last step, for every position with `|size| > 1e-8`
the driver synthesizes an opposite-side closing order of size `|size|`,
routes it through the broker (appending exactly one fill) and notifies every
strategy; positions with `|size| < 1e-8` are zeroed without a trade; hence
every position in the final snapshot has size 0 — except positions whose
size is exactly `±1e-8`, which are neither closed nor zeroed. -/
theorem forced_liquidation {σ : Type} (env : Env) (symbols : List String)
    (data : List (String × List Row)) (strats : List (Strategy σ))
    (fee_rate slippage_pct cash : ℚ) (hN : 1 ≤ numSteps data) :
    (∀ snap,
      (runBacktest env symbols data
        (initialEngineState strats fee_rate slippage_pct cash)).broker.portfolio.history.getLast?
          = some snap →
      ∀ p ∈ snap.positions, p.2.size = 0 ∨ |p.2.size| = eps8) ∧
    (∀ (st : EngineState σ) (mp : List (String × ℚ)) (sym : String) (m : ℚ),
      alookup mp sym = some m →
      eps8 < |(st.broker.portfolio.getPosition sym).size| →
      ∃ f : Fill, f.symbol = sym ∧
        f.is_buy = decide ((st.broker.portfolio.getPosition sym).size < 0) ∧
        f.size = |(st.broker.portfolio.getPosition sym).size| ∧
        (closeOne env mp st sym).broker.fills = st.broker.fills ++ [f] ∧
        (closeOne env mp st sym).strategies = notifyAll st.strategies f ∧
        ((closeOne env mp st sym).broker.portfolio.getPosition sym).size = 0) := by
  constructor
  · intro snap hlast p hp
    obtain ⟨m0, hm0⟩ : ∃ m0, numSteps data = m0 + 1 :=
      ⟨numSteps data - 1, (Nat.succ_pred_eq_of_pos hN).symm⟩
    unfold runBacktest at hlast
    rw [hm0, List.range_succ, List.foldl_append, List.foldl_cons, List.foldl_nil] at hlast
    have hinv := foldl_runStep_inv env symbols data (m0 + 1) (List.range m0)
      (initialEngineState strats fee_rate slippage_pct cash)
      (by intro x hx; simp [initialEngineState, Portfolio.init] at hx)
      (by simp [posKeysNodup, initialEngineState, Portfolio.init])
    obtain ⟨snap', hs1, hs2, hs3⟩ := runStep_last_spec env symbols data (m0 + 1)
      ((List.range m0).foldl
        (fun s idx => runStep env symbols data (m0 + 1) idx s)
        (initialEngineState strats fee_rate slippage_pct cash)) hinv.1 hinv.2
    rw [show m0 + 1 - 1 = m0 from rfl] at hs1
    rw [hlast] at hs1
    injection hs1 with hs1'
    exact hs3 p (hs1' ▸ hp)
  · intro st mp sym m hm hbig
    exact closeOne_fills_spec env mp st sym hm hbig

set_option maxHeartbeats 1000000 in
/-- C3 counterexample: a strategy that buys exactly `1e-8` once leaves a
position of size exactly `1e-8` at the last step; the driver synthesizes no
closing order for it (the fills log holds only the opening fill) and the
final snapshot shows the nonzero size `1e-8`. -/
theorem forced_liquidation_counterexample :
    (runBacktest envC ["A"] dataC
      (initialEngineState [buyOnceStrategy (1 / 100000000)] 0 0 1000)).broker.portfolio.history.getLast?
        = some ⟨1, 1000 - 1 / 1000000, 1000, [("A", ⟨"A", 1 / 100000000, 100, 0⟩)]⟩ ∧
    (runBacktest envC ["A"] dataC
      (initialEngineState [buyOnceStrategy (1 / 100000000)] 0 0 1000)).broker.fills.length = 1 ∧
    ((1 : ℚ) / 100000000 ≠ 0) := by
  refine ⟨?_, ?_, by norm_num⟩ <;>
  · norm_num [runBacktest, numSteps, runStep, stepSymbols, dispatchCandle,
      closeAllPositions, closeOne, closeOneSubmit, clampPos, notifyAll,
      Broker.submitOrder, Broker.executeOrder, Portfolio.applyFill, applyFillPos,
      closeStep, openStep, cleanupStep, Portfolio.getPosition, Portfolio.recordSnapshot,
      Portfolio.equity, Portfolio.init, initialEngineState, buyOnceStrategy, envC, dataC,
      Fill.signedSize, alookup_nil, alookup_cons, aupdate_nil, aupdate_cons,
      eps8, eps10, min_def, abs_eq_max_neg, max_def,
      List.range_succ, List.range_zero]

set_option maxHeartbeats 1000000 in
theorem forced_liquidation_witness :
    (Position.mk "A" 0 0 0).size = 0 ∨ |(Position.mk "A" 0 0 0).size| = eps8 := by
  have h := (forced_liquidation envC ["A"] dataC [buyOnceStrategy 1] 0 0 1000
    (by decide)).1 ⟨1, 1000, 1000, [("A", ⟨"A", 0, 0, 0⟩)]⟩
    (by norm_num [runBacktest, numSteps, runStep, stepSymbols, dispatchCandle,
      closeAllPositions, closeOne, closeOneSubmit, clampPos, notifyAll,
      Broker.submitOrder, Broker.executeOrder, Portfolio.applyFill, applyFillPos,
      closeStep, openStep, cleanupStep, Portfolio.getPosition, Portfolio.recordSnapshot,
      Portfolio.equity, Portfolio.init, initialEngineState, buyOnceStrategy, envC, dataC,
      Fill.signedSize, alookup_nil, alookup_cons, aupdate_nil, aupdate_cons,
      eps8, eps10, min_def, abs_eq_max_neg, max_def,
      List.range_succ, List.range_zero])
  exact h ("A", ⟨"A", 0, 0, 0⟩) (List.mem_singleton.mpr rfl)

/-! ### Determinism up to wall-clock and uuid fields -/

theorem applyFill_econ (pf : Portfolio) {f g : Fill} (h : f.econ = g.econ) :
    pf.applyFill f = pf.applyFill g := by
  have h1 : f.symbol = g.symbol := congrArg FillEcon.symbol h
  have h2 : f.is_buy = g.is_buy := congrArg FillEcon.is_buy h
  have h3 : f.price = g.price := congrArg FillEcon.price h
  have h4 : f.size = g.size := congrArg FillEcon.size h
  have h5 : f.fee = g.fee := congrArg FillEcon.fee h
  simp only [Portfolio.applyFill, applyFillPos, Fill.signedSize, h1, h2, h3, h4, h5]

theorem executeOrder_econ (b1 b2 : Broker) (hfee : b1.fee_rate = b2.fee_rate)
    (hslip : b1.slippage_pct = b2.slippage_pct) (env1 env2 : Env)
    (hrand : env1.rand = env2.rand) (o1 o2 : Order) (hsym : o1.symbol = o2.symbol)
    (hbuy : o1.is_buy = o2.is_buy) (hsize : o1.size = o2.size)
    (mp : List (String × ℚ)) (k c : ℕ) :
    (b1.executeOrder env1 o1 mp k c).1.map Fill.econ
        = (b2.executeOrder env2 o2 mp k c).1.map Fill.econ ∧
    (b1.executeOrder env1 o1 mp k c).2 = (b2.executeOrder env2 o2 mp k c).2 := by
  unfold Broker.executeOrder
  rw [hsym]
  cases alookup mp o2.symbol with
  | none => exact ⟨rfl, rfl⟩
  | some m =>
    dsimp only
    rw [hrand, hslip, hfee]
    refine ⟨?_, rfl⟩
    simp [Fill.econ, hbuy, hsize]

theorem submitOrder_econ {b1 b2 : Broker} (hb : BrokerRel b1 b2) (env1 env2 : Env)
    (hrand : env1.rand = env2.rand) (o1 o2 : Order) (hsym : o1.symbol = o2.symbol)
    (hbuy : o1.is_buy = o2.is_buy) (hsize : o1.size = o2.size)
    (mp : List (String × ℚ)) (k c : ℕ) :
    (b1.submitOrder env1 o1 mp k c).1.map Fill.econ
        = (b2.submitOrder env2 o2 mp k c).1.map Fill.econ ∧
    BrokerRel (b1.submitOrder env1 o1 mp k c).2.1 (b2.submitOrder env2 o2 mp k c).2.1 ∧
    (b1.submitOrder env1 o1 mp k c).2.2 = (b2.submitOrder env2 o2 mp k c).2.2 := by
  obtain ⟨hfee, hslip, hpf, hfl⟩ := hb
  obtain ⟨hopt, hctr⟩ := executeOrder_econ b1 b2 hfee hslip env1 env2 hrand
    o1 o2 hsym hbuy hsize mp k c
  unfold Broker.submitOrder
  cases hex1 : b1.executeOrder env1 o1 mp k c with
  | mk f1? r1 =>
    cases hex2 : b2.executeOrder env2 o2 mp k c with
    | mk f2? r2 =>
      rw [hex1, hex2] at hopt hctr
      obtain ⟨ka, ca⟩ := r1
      obtain ⟨kb, cb⟩ := r2
      cases f1? with
      | none =>
        cases f2? with
        | none => exact ⟨rfl, ⟨hfee, hslip, hpf, hfl⟩, by simpa using hctr⟩
        | some f2 => simp at hopt
      | some f1 =>
        cases f2? with
        | none => simp at hopt
        | some f2 =>
          simp only [Option.map_some'] at hopt
          injection hopt with hecon
          refine ⟨by simp [hecon], ⟨hfee, hslip, ?_, ?_⟩, by simpa using hctr⟩
          · dsimp only
            rw [hpf]
            exact applyFill_econ _ hecon
          · dsimp only
            rw [List.map_append, List.map_append, hfl]
            simp [hecon]

theorem dispatchCandle_econ {σ : Type} (env1 env2 : Env) (hrand : env1.rand = env2.rand)
    (candle : Candle) (symbol : String) (mp : List (String × ℚ)) :
    ∀ (strats : List (Strategy σ)), StratsInsens strats →
      ∀ (b1 b2 : Broker) (k c : ℕ), BrokerRel b1 b2 →
      (dispatchCandle env1 candle symbol mp strats b1 k c).1
        = (dispatchCandle env2 candle symbol mp strats b2 k c).1 ∧
      BrokerRel (dispatchCandle env1 candle symbol mp strats b1 k c).2.1
        (dispatchCandle env2 candle symbol mp strats b2 k c).2.1 ∧
      (dispatchCandle env1 candle symbol mp strats b1 k c).2.2
        = (dispatchCandle env2 candle symbol mp strats b2 k c).2.2 ∧
      StratsInsens (dispatchCandle env1 candle symbol mp strats b1 k c).1 := by
  intro strats
  induction strats with
  | nil =>
    intro _ b1 b2 k c hb
    exact ⟨rfl, hb, rfl, by intro t ht; simp [dispatchCandle] at ht⟩
  | cons strat rest ih =>
    intro hins b1 b2 k c hb
    have hinshead := hins strat (List.mem_cons_self _ _)
    have hinstail : StratsInsens rest := fun t ht => hins t (List.mem_cons_of_mem _ ht)
    rw [dispatchCandle, dispatchCandle]
    cases hoc : strat.on_candle strat.state candle symbol with
    | mk o? s' =>
      cases o? with
      | none =>
        dsimp only
        obtain ⟨ha, hbrel, hc, hins'⟩ := ih hinstail b1 b2 k c hb
        refine ⟨by rw [ha], hbrel, hc, ?_⟩
        intro t ht
        rcases List.mem_cons.mp ht with rfl | ht'
        · exact hinshead
        · exact hins' t ht'
      | some o =>
        dsimp only
        obtain ⟨hf, hbrel1, hctr⟩ := submitOrder_econ hb env1 env2 hrand o o rfl rfl rfl mp k c
        cases hs1 : b1.submitOrder env1 o mp k c with
        | mk f1? r1 =>
          cases hs2 : b2.submitOrder env2 o mp k c with
          | mk f2? r2 =>
            rw [hs1, hs2] at hf hbrel1 hctr
            obtain ⟨b1', k1', c1'⟩ := r1
            obtain ⟨b2', k2', c2'⟩ := r2
            simp only [Prod.mk.injEq] at hctr
            obtain ⟨hk, hc'⟩ := hctr
            subst hk
            subst hc'
            cases f1? with
            | none =>
              cases f2? with
              | none =>
                dsimp only
                obtain ⟨ha, hbrel, hcc, hins'⟩ := ih hinstail b1' b2' k1' c1' hbrel1
                refine ⟨by rw [ha], hbrel, hcc, ?_⟩
                intro t ht
                rcases List.mem_cons.mp ht with rfl | ht'
                · exact hinshead
                · exact hins' t ht'
              | some f2 => simp at hf
            | some f1 =>
              cases f2? with
              | none => simp at hf
              | some f2 =>
                simp only [Option.map_some'] at hf
                injection hf with hecon
                dsimp only
                obtain ⟨ha, hbrel, hcc, hins'⟩ := ih hinstail b1' b2' k1' c1' hbrel1
                have hst2 : strat.on_fill s' f1 = strat.on_fill s' f2 :=
                  hinshead s' f1 f2 hecon
                refine ⟨by rw [ha, hst2], hbrel, hcc, ?_⟩
                intro t ht
                rcases List.mem_cons.mp ht with rfl | ht'
                · exact hinshead
                · exact hins' t ht'

theorem stepSymbols_econ {σ : Type} (env1 env2 : Env) (hrand : env1.rand = env2.rand)
    (data : List (String × List Row)) (idx : ℕ) :
    ∀ (syms : List String) (strats : List (Strategy σ)), StratsInsens strats →
      ∀ (b1 b2 : Broker) (k c : ℕ) (mp : List (String × ℚ)), BrokerRel b1 b2 →
      (stepSymbols env1 data idx syms strats b1 k c mp).1.1
        = (stepSymbols env2 data idx syms strats b2 k c mp).1.1 ∧
      BrokerRel (stepSymbols env1 data idx syms strats b1 k c mp).1.2.1
        (stepSymbols env2 data idx syms strats b2 k c mp).1.2.1 ∧
      (stepSymbols env1 data idx syms strats b1 k c mp).1.2.2
        = (stepSymbols env2 data idx syms strats b2 k c mp).1.2.2 ∧
      (stepSymbols env1 data idx syms strats b1 k c mp).2
        = (stepSymbols env2 data idx syms strats b2 k c mp).2 ∧
      StratsInsens (stepSymbols env1 data idx syms strats b1 k c mp).1.1 := by
  intro syms
  induction syms with
  | nil =>
    intro strats hins b1 b2 k c mp hb
    exact ⟨rfl, hb, rfl, rfl, hins⟩
  | cons symbol rest ih =>
    intro strats hins b1 b2 k c mp hb
    rw [stepSymbols, stepSymbols]
    dsimp only
    obtain ⟨ha, hbrel, hcc, hins'⟩ := dispatchCandle_econ env1 env2 hrand
      { symbol := symbol,
        timestamp := (((alookup data symbol).getD []).getD idx default).timestamp,
        open_ := (((alookup data symbol).getD []).getD idx default).open_,
        high := (((alookup data symbol).getD []).getD idx default).high,
        low := (((alookup data symbol).getD []).getD idx default).low,
        close := (((alookup data symbol).getD []).getD idx default).close,
        volume := (((alookup data symbol).getD []).getD idx default).volume.getD 0 }
      symbol
      (aupdate mp symbol (((alookup data symbol).getD []).getD idx default).close)
      strats hins b1 b2 k c hb
    cases hd1 : dispatchCandle env1
        { symbol := symbol,
          timestamp := (((alookup data symbol).getD []).getD idx default).timestamp,
          open_ := (((alookup data symbol).getD []).getD idx default).open_,
          high := (((alookup data symbol).getD []).getD idx default).high,
          low := (((alookup data symbol).getD []).getD idx default).low,
          close := (((alookup data symbol).getD []).getD idx default).close,
          volume := (((alookup data symbol).getD []).getD idx default).volume.getD 0 }
        symbol (aupdate mp symbol (((alookup data symbol).getD []).getD idx default).close)
        strats b1 k c with
    | mk strats1 r1 =>
      cases hd2 : dispatchCandle env2
          { symbol := symbol,
            timestamp := (((alookup data symbol).getD []).getD idx default).timestamp,
            open_ := (((alookup data symbol).getD []).getD idx default).open_,
            high := (((alookup data symbol).getD []).getD idx default).high,
            low := (((alookup data symbol).getD []).getD idx default).low,
            close := (((alookup data symbol).getD []).getD idx default).close,
            volume := (((alookup data symbol).getD []).getD idx default).volume.getD 0 }
          symbol (aupdate mp symbol (((alookup data symbol).getD []).getD idx default).close)
          strats b2 k c with
      | mk strats2 r2 =>
        rw [hd1] at ha hbrel hcc hins'
        rw [hd2] at ha hbrel hcc
        obtain ⟨b1', k1', c1'⟩ := r1
        obtain ⟨b2', k2', c2'⟩ := r2
        dsimp only at ha hbrel hcc hins'
        simp only [Prod.mk.injEq] at hcc
        obtain ⟨hk, hc'⟩ := hcc
        subst ha
        subst hk
        subst hc'
        exact ih strats1 hins' b1' b2' k1' c1' _ hbrel

theorem notifyAll_econ {σ : Type} {strats : List (Strategy σ)} (hins : StratsInsens strats)
    {f g : Fill} (hecon : f.econ = g.econ) : notifyAll strats f = notifyAll strats g := by
  unfold notifyAll
  exact List.map_congr_left (fun strat hstrat => by rw [hins strat hstrat _ f g hecon])

theorem notifyAll_insens {σ : Type} {strats : List (Strategy σ)} (hins : StratsInsens strats)
    (f : Fill) : StratsInsens (notifyAll strats f) := by
  intro t ht
  rcases List.mem_map.mp ht with ⟨strat, hstrat, rfl⟩
  exact hins strat hstrat

theorem clampPos_econ {σ : Type} {s1 s2 : EngineState σ} (sym : String)
    (hrel : StateRel s1 s2) : StateRel (clampPos s1 sym) (clampPos s2 sym) := by
  obtain ⟨hstr, ⟨hfee, hslip, hpf, hfl⟩, hk, hc, hu⟩ := hrel
  unfold clampPos
  dsimp only
  have hcond : (|(s2.broker.portfolio.getPosition sym).size| < eps8)
      = (|(s1.broker.portfolio.getPosition sym).size| < eps8) := by rw [hpf]
  split_ifs with h1 h2 h2
  · exact ⟨hstr, ⟨hfee, hslip, by dsimp only; rw [hpf], hfl⟩, hk, hc, hu⟩
  · rw [hcond] at h2; exact absurd h1 h2
  · rw [hcond] at h2; exact absurd h2 h1
  · exact ⟨hstr, ⟨hfee, hslip, hpf, hfl⟩, hk, hc, hu⟩

theorem closeOneSubmit_econ {σ : Type} (env1 env2 : Env) (hrand : env1.rand = env2.rand)
    (mp : List (String × ℚ)) {s1 s2 : EngineState σ} (sym : String)
    (hrel : StateRel s1 s2) (hins : StratsInsens s1.strategies) :
    StateRel (closeOneSubmit env1 mp s1 sym) (closeOneSubmit env2 mp s2 sym) ∧
    StratsInsens (closeOneSubmit env1 mp s1 sym).strategies := by
  obtain ⟨hstr, ⟨hfee, hslip, hpf, hfl⟩, hk, hc, hu⟩ := hrel
  unfold closeOneSubmit
  dsimp only
  have hpos : s2.broker.portfolio.getPosition sym = s1.broker.portfolio.getPosition sym := by
    rw [hpf]
  have hcond : (eps8 < |(s2.broker.portfolio.getPosition sym).size|)
      = (eps8 < |(s1.broker.portfolio.getPosition sym).size|) := by rw [hpos]
  split_ifs with h1 h2 h2
  · obtain ⟨hf, hbrel, hctr⟩ := submitOrder_econ ⟨hfee, hslip, hpf, hfl⟩ env1 env2 hrand
      { id := "CLOSE_" ++ env1.uuidStr s1.u, symbol := sym,
        is_buy := (s1.broker.portfolio.getPosition sym).size < 0,
        price := (alookup mp sym).getD (s1.broker.portfolio.getPosition sym).avg_price,
        size := |(s1.broker.portfolio.getPosition sym).size| }
      { id := "CLOSE_" ++ env2.uuidStr s2.u, symbol := sym,
        is_buy := (s2.broker.portfolio.getPosition sym).size < 0,
        price := (alookup mp sym).getD (s2.broker.portfolio.getPosition sym).avg_price,
        size := |(s2.broker.portfolio.getPosition sym).size| }
      rfl (by rw [hpos]) (by rw [hpos]) mp s1.k s1.c
    rw [← hk, ← hc]
    constructor
    · refine ⟨?_, hbrel, by rw [hctr], by rw [hctr], by rw [hu]⟩
      dsimp only
      cases hx1 : ((s1.broker.submitOrder env1
          { id := "CLOSE_" ++ env1.uuidStr s1.u, symbol := sym,
            is_buy := (s1.broker.portfolio.getPosition sym).size < 0,
            price := (alookup mp sym).getD (s1.broker.portfolio.getPosition sym).avg_price,
            size := |(s1.broker.portfolio.getPosition sym).size| } mp s1.k s1.c).1) with
      | none =>
        cases hx2 : ((s2.broker.submitOrder env2
            { id := "CLOSE_" ++ env2.uuidStr s2.u, symbol := sym,
              is_buy := (s2.broker.portfolio.getPosition sym).size < 0,
              price := (alookup mp sym).getD (s2.broker.portfolio.getPosition sym).avg_price,
              size := |(s2.broker.portfolio.getPosition sym).size| } mp s1.k s1.c).1) with
        | none => exact hstr
        | some f2 => rw [hx1, hx2] at hf; simp at hf
      | some f1 =>
        cases hx2 : ((s2.broker.submitOrder env2
            { id := "CLOSE_" ++ env2.uuidStr s2.u, symbol := sym,
              is_buy := (s2.broker.portfolio.getPosition sym).size < 0,
              price := (alookup mp sym).getD (s2.broker.portfolio.getPosition sym).avg_price,
              size := |(s2.broker.portfolio.getPosition sym).size| } mp s1.k s1.c).1) with
        | none => rw [hx1, hx2] at hf; simp at hf
        | some f2 =>
          rw [hx1, hx2] at hf
          simp only [Option.map_some'] at hf
          injection hf with hecon
          rw [← hstr]
          exact notifyAll_econ hins hecon
    · dsimp only
      cases hx1 : ((s1.broker.submitOrder env1
          { id := "CLOSE_" ++ env1.uuidStr s1.u, symbol := sym,
            is_buy := (s1.broker.portfolio.getPosition sym).size < 0,
            price := (alookup mp sym).getD (s1.broker.portfolio.getPosition sym).avg_price,
            size := |(s1.broker.portfolio.getPosition sym).size| } mp s1.k s1.c).1) with
      | none => exact hins
      | some f1 => exact notifyAll_insens hins f1
  · rw [hcond] at h2; exact absurd h1 h2
  · rw [hcond] at h2; exact absurd h2 h1
  · exact ⟨⟨hstr, ⟨hfee, hslip, hpf, hfl⟩, hk, hc, hu⟩, hins⟩

theorem closeOne_econ {σ : Type} (env1 env2 : Env) (hrand : env1.rand = env2.rand)
    (mp : List (String × ℚ)) {s1 s2 : EngineState σ} (sym : String)
    (hrel : StateRel s1 s2) (hins : StratsInsens s1.strategies) :
    StateRel (closeOne env1 mp s1 sym) (closeOne env2 mp s2 sym) ∧
    StratsInsens (closeOne env1 mp s1 sym).strategies := by
  obtain ⟨hrel1, hins1⟩ := closeOneSubmit_econ env1 env2 hrand mp sym hrel hins
  unfold closeOne
  refine ⟨clampPos_econ sym hrel1, ?_⟩
  rw [clampPos_strategies]
  exact hins1

theorem closeAll_econ {σ : Type} (env1 env2 : Env) (hrand : env1.rand = env2.rand)
    (mp : List (String × ℚ)) :
    ∀ (keys : List String) {s1 s2 : EngineState σ},
      StateRel s1 s2 → StratsInsens s1.strategies →
      StateRel (closeAllPositions env1 mp keys s1) (closeAllPositions env2 mp keys s2) ∧
      StratsInsens (closeAllPositions env1 mp keys s1).strategies := by
  intro keys
  induction keys with
  | nil => intro s1 s2 hrel hins; exact ⟨hrel, hins⟩
  | cons sym rest ih =>
    intro s1 s2 hrel hins
    rw [closeAllPositions, closeAllPositions]
    obtain ⟨hrel1, hins1⟩ := closeOne_econ env1 env2 hrand mp sym hrel hins
    exact ih hrel1 hins1

theorem runStep_econ {σ : Type} (env1 env2 : Env) (hrand : env1.rand = env2.rand)
    (symbols : List String) (data : List (String × List Row)) (total idx : ℕ)
    {s1 s2 : EngineState σ} (hrel : StateRel s1 s2) (hins : StratsInsens s1.strategies) :
    StateRel (runStep env1 symbols data total idx s1) (runStep env2 symbols data total idx s2) ∧
    StratsInsens (runStep env1 symbols data total idx s1).strategies := by
  obtain ⟨hstr, hbrel, hk, hc, hu⟩ := hrel
  unfold runStep
  rw [← hstr, ← hk, ← hc]
  obtain ⟨ha, hbrel', hcc, hmp, hins'⟩ := stepSymbols_econ env1 env2 hrand data idx symbols
    s1.strategies hins s1.broker s2.broker s1.k s1.c [] hbrel
  cases hss1 : stepSymbols env1 data idx symbols s1.strategies s1.broker s1.k s1.c []
    with
  | mk a1 mp1 =>
    cases hss2 : stepSymbols env2 data idx symbols s1.strategies s2.broker s1.k s1.c []
      with
    | mk a2 mp2 =>
      rw [hss1] at ha hbrel' hcc hmp hins'
      rw [hss2] at ha hbrel' hcc hmp
      obtain ⟨strats1, b1', k1', c1'⟩ := a1
      obtain ⟨strats2, b2', k2', c2'⟩ := a2
      dsimp only at ha hbrel' hcc hmp hins'
      simp only [Prod.mk.injEq] at hcc
      obtain ⟨hk', hc''⟩ := hcc
      subst ha
      subst hk'
      subst hc''
      subst hmp
      dsimp only
      have hrel1 : StateRel (σ := σ)
          { strategies := strats1, broker := b1', k := k1', c := c1', u := s1.u }
          { strategies := strats1, broker := b2', k := k1', c := c1', u := s2.u } := by
        exact ⟨rfl, hbrel', rfl, rfl, hu⟩
      have hfin : StateRel
          (if idx = total - 1 then
            closeAllPositions env1 mp1
              (List.map Prod.fst
                ({ strategies := strats1, broker := b1', k := k1', c := c1',
                    u := s1.u } : EngineState σ).broker.portfolio.positions)
              { strategies := strats1, broker := b1', k := k1', c := c1', u := s1.u }
          else { strategies := strats1, broker := b1', k := k1', c := c1', u := s1.u })
          (if idx = total - 1 then
            closeAllPositions env2 mp1
              (List.map Prod.fst
                ({ strategies := strats1, broker := b2', k := k1', c := c1',
                    u := s2.u } : EngineState σ).broker.portfolio.positions)
              { strategies := strats1, broker := b2', k := k1', c := c1', u := s2.u }
          else { strategies := strats1, broker := b2', k := k1', c := c1', u := s2.u }) ∧
          StratsInsens
          (if idx = total - 1 then
            closeAllPositions env1 mp1
              (List.map Prod.fst
                ({ strategies := strats1, broker := b1', k := k1', c := c1',
                    u := s1.u } : EngineState σ).broker.portfolio.positions)
              { strategies := strats1, broker := b1', k := k1', c := c1', u := s1.u }
          else { strategies := strats1, broker := b1', k := k1', c := c1',
                  u := s1.u }).strategies := by
        split_ifs with hidx
        · have hkeys : List.map Prod.fst
              ({ strategies := strats1, broker := b2', k := k1', c := c1',
                  u := s2.u } : EngineState σ).broker.portfolio.positions
              = List.map Prod.fst
              ({ strategies := strats1, broker := b1', k := k1', c := c1',
                  u := s1.u } : EngineState σ).broker.portfolio.positions := by
            dsimp only
            rw [hbrel'.2.2.1]
          rw [hkeys]
          exact closeAll_econ env1 env2 hrand mp1 _ hrel1 hins'
        · exact ⟨hrel1, hins'⟩
      obtain ⟨⟨hstrf, ⟨hfeef, hslipf, hpff, hflf⟩, hkf, hcf, huf⟩, hinsf⟩ := hfin
      refine ⟨⟨hstrf, ⟨hfeef, hslipf, ?_, hflf⟩, hkf, hcf, huf⟩, hinsf⟩
      dsimp only
      rw [hpff]

theorem runBacktest_econ {σ : Type} (env1 env2 : Env) (hrand : env1.rand = env2.rand)
    (symbols : List String) (data : List (String × List Row)) :
    ∀ (l : List ℕ) {s1 s2 : EngineState σ},
      StateRel s1 s2 → StratsInsens s1.strategies →
      StateRel (l.foldl (fun s idx => runStep env1 symbols data (numSteps data) idx s) s1)
        (l.foldl (fun s idx => runStep env2 symbols data (numSteps data) idx s) s2) ∧
      StratsInsens
        (l.foldl (fun s idx => runStep env1 symbols data (numSteps data) idx s) s1).strategies := by
  intro l
  induction l with
  | nil => intro s1 s2 hrel hins; exact ⟨hrel, hins⟩
  | cons idx rest ih =>
    intro s1 s2 hrel hins
    rw [List.foldl_cons, List.foldl_cons]
    obtain ⟨hrel1, hins1⟩ := runStep_econ env1 env2 hrand symbols data (numSteps data) idx
      hrel hins
    exact ih hrel1 hins1

/-- C9 (amended): two runs over identical data, strategies, broker
configuration and PRNG stream — with possibly different wall clocks and
uuids — produce fill logs identical in every economic field (symbol, side,
price, size, fee, fee currency) and identical portfolios (hence identical
snapshot histories and final equity), provided each strategy's `on_fill`
ignores the wall-clock-derived fields; the `fill_id`/`timestamp`/`order_id`
fields may differ between runs. -/
theorem determinism_up_to_clock {σ : Type} (env1 env2 : Env)
    (hrand : env1.rand = env2.rand) (symbols : List String)
    (data : List (String × List Row)) (strats : List (Strategy σ))
    (fee_rate slippage_pct cash : ℚ) (hins : StratsInsens strats) :
    (runBacktest env1 symbols data
        (initialEngineState strats fee_rate slippage_pct cash)).broker.fills.map Fill.econ
      = (runBacktest env2 symbols data
        (initialEngineState strats fee_rate slippage_pct cash)).broker.fills.map Fill.econ ∧
    (runBacktest env1 symbols data
        (initialEngineState strats fee_rate slippage_pct cash)).broker.portfolio
      = (runBacktest env2 symbols data
        (initialEngineState strats fee_rate slippage_pct cash)).broker.portfolio := by
  have h := runBacktest_econ env1 env2 hrand symbols data
    (List.range (numSteps data))
    (show StateRel (initialEngineState strats fee_rate slippage_pct cash)
        (initialEngineState strats fee_rate slippage_pct cash) from
      ⟨rfl, ⟨rfl, rfl, rfl, rfl⟩, rfl, rfl, rfl⟩) hins
  obtain ⟨⟨-, ⟨-, -, hpf, hfl⟩, -, -, -⟩, -⟩ := h
  exact ⟨hfl, hpf⟩

set_option maxHeartbeats 1000000 in
/-- C9 counterexample: with identical data, strategy, configuration and PRNG
stream but wall clocks read at different times, the two runs' fill logs
differ (in the `fill_time`/`timestamp` fields), so the trade sequence is not
identical in every field. -/
theorem determinism_up_to_clock_counterexample :
    (runBacktest envC ["A"] dataC
        (initialEngineState [buyOnceStrategy 1] 0 0 1000)).broker.fills
      ≠ (runBacktest envC2 ["A"] dataC
        (initialEngineState [buyOnceStrategy 1] 0 0 1000)).broker.fills ∧
    envC.rand = envC2.rand := by
  constructor
  · norm_num [runBacktest, numSteps, runStep, stepSymbols, dispatchCandle,
      closeAllPositions, closeOne, closeOneSubmit, clampPos, notifyAll,
      Broker.submitOrder, Broker.executeOrder, Portfolio.applyFill, applyFillPos,
      closeStep, openStep, cleanupStep, Portfolio.getPosition, Portfolio.recordSnapshot,
      Portfolio.equity, Portfolio.init, initialEngineState, buyOnceStrategy, envC, envC2,
      dataC, Fill.signedSize, alookup_nil, alookup_cons, aupdate_nil, aupdate_cons,
      eps8, eps10, min_def, abs_eq_max_neg, max_def,
      List.range_succ, List.range_zero, Fill.mk.injEq]
  · rfl

theorem determinism_up_to_clock_witness :
    (runBacktest envC ["A"] dataC
        (initialEngineState [buyOnceStrategy 1] 0 0 1000)).broker.fills.map Fill.econ
      = (runBacktest envC2 ["A"] dataC
        (initialEngineState [buyOnceStrategy 1] 0 0 1000)).broker.fills.map Fill.econ := by
  exact (determinism_up_to_clock envC envC2 rfl ["A"] dataC [buyOnceStrategy 1] 0 0 1000
    (by intro strat hstrat s f g hecon
        rcases List.mem_singleton.mp hstrat with rfl
        rfl)).1

end Backtester
